import Mathlib

/-!
Control-structure tree extraction (`server/tree.go`, `treenode/node.go`)

A shallow embedding of the two recursive functions of the repository,
`findFunctionNodes` and `extractNodes`, over an abstract model of the
tree-sitter node capability they consume.

Modelling conventions.

* A Go string is an immutable byte sequence.  Each byte is represented by the
  character with the same code, so the source buffer `sourceCode []byte` is a
  `List Char` and `string(sourceCode[a:b])` is a `String`.
* A run-time fault (nil-pointer dereference on the result of
  `ChildByFieldName`, slice bounds out of range) is the result `none`; a call
  that returns normally is `some` of its return value.
* `fmt.Printf` / `fmt.Println` diagnostics are not part of the returned value
  and are not modelled.
* A Go `nil` slice and an empty slice are both the empty list.
-/

namespace CodeParser

/-! ## `treenode/node.go` -/

namespace treenode

abbrev Function : String := "function"
abbrev IF : String := "if"
abbrev SWITCH : String := "switch"
abbrev CASE : String := "case"
abbrev FOR : String := "for"
abbrev WHILE : String := "while"
abbrev DOWHILE : String := "doWhile"
abbrev INSTRUCTION : String := "instruction"
abbrev TRY : String := "try"

end treenode

/-- The output record `treenode.TreeNode`: fields `Type`, `Data`, `Condition`,
`Nodes` in this order (`Type` is a reserved word, hence `Type_`). -/
inductive TreeNode where
  | mk (Type_ : String) (Data : String) (Condition : String) (Nodes : List TreeNode)

namespace TreeNode

def Type_ : TreeNode → String
  | mk t _ _ _ => t

def Data : TreeNode → String
  | mk _ d _ _ => d

def Condition : TreeNode → String
  | mk _ _ c _ => c

def Nodes : TreeNode → List TreeNode
  | mk _ _ _ ns => ns

/-- The assignment `nodes[j].Condition = v` on one element. -/
def setCondition (v : String) : TreeNode → TreeNode
  | mk t d _ ns => mk t d v ns

end TreeNode

mutual
/-- A summary node together with all its descendants, in pre-order. -/
def TreeNode.subtree : TreeNode → List TreeNode
  | .mk t d c ns => .mk t d c ns :: subtrees ns
/-- All summary nodes, at any depth, of a sequence of summary nodes. -/
def subtrees : List TreeNode → List TreeNode
  | [] => []
  | t :: ts => t.subtree ++ subtrees ts
end

/-! ## The node capability (`*sitter.Node`) -/

/-- A parse-tree node as seen through the accessors the program uses: its type
tag, the field label under which its parent holds it (if any), whether it is a
named node, its byte range, and its children (named and anonymous) in order. -/
inductive Node where
  | mk (type : String) (field : Option String) (named : Bool)
      (startByte endByte : Nat) (children : List Node)

namespace Node

def Type_ : Node → String
  | mk t _ _ _ _ _ => t

def fieldName : Node → Option String
  | mk _ f _ _ _ _ => f

def IsNamed : Node → Bool
  | mk _ _ n _ _ _ => n

def StartByte : Node → Nat
  | mk _ _ _ s _ _ => s

def EndByte : Node → Nat
  | mk _ _ _ _ e _ => e

def children : Node → List Node
  | mk _ _ _ _ _ cs => cs

/-- The nodes `NamedChild(0)`, ..., `NamedChild(NamedChildCount()-1)`. -/
def namedChildren (n : Node) : List Node :=
  n.children.filter Node.IsNamed

def NamedChildCount (n : Node) : Nat :=
  n.namedChildren.length

def NamedChild (n : Node) (i : Nat) : Option Node :=
  n.namedChildren.get? i

end Node

/-- The first node of a child list held under field label `name`. -/
def fieldOf (name : String) : List Node → Option Node
  | [] => none
  | c :: cs => if c.fieldName = some name then some c else fieldOf name cs

/-- The lookup `node.ChildByFieldName(name)`; `none` is Go's `nil`. -/
def Node.ChildByFieldName (n : Node) (name : String) : Option Node :=
  fieldOf name n.children

/-- The conversion `string(sourceCode[a:b])`: faults unless `a ≤ b ≤ len`
(the buffer's capacity is taken to be its length). -/
def sourceSlice (sourceCode : List Char) (a b : Nat) : Option String :=
  if a ≤ b ∧ b ≤ sourceCode.length then
    some (String.mk ((sourceCode.drop a).take (b - a)))
  else none

/-! ## `server/tree.go` -/

def isFunctionNode (nodeType : String) : Bool :=
  nodeType == "function_definition" || nodeType == "function_declaration"

mutual
/-- One iteration of the loop of `extractNodes`: the `switch child.Type()`
applied to a named child, returning the summary nodes that the iteration
appends to `bodyNodes`.  `extractLoop sourceCode cs` on the child's own child
list `cs` is `extractNodes(child, sourceCode)`; `extractField sourceCode f cs`
is `extractNodes(child.ChildByFieldName(f), sourceCode)`. -/
def extractChild (sourceCode : List Char) : Node → Option (List TreeNode)
  | .mk ty _ _ s e cs =>
    if ty = "compound_statement" then
      extractLoop sourceCode cs
    else if ty = "return_statement" then do
      let data ← sourceSlice sourceCode s e
      pure [TreeNode.mk treenode.INSTRUCTION data "" []]
    else if ty = "expression_statement" then do
      let data ← sourceSlice sourceCode s e
      pure [TreeNode.mk treenode.INSTRUCTION data "" []]
    else if ty = "for_statement" then do
      let declaration ← fieldOf "initializer" cs
      let condition ← fieldOf "condition" cs
      let update := fieldOf "update" cs
      let newCondition ← sourceSlice sourceCode declaration.StartByte condition.EndByte
      let newCondition ←
        (match update with
          | some u => sourceSlice sourceCode declaration.StartByte u.EndByte
          | none => some newCondition)
      let nodes ← extractField sourceCode "body" cs
      pure [TreeNode.mk treenode.FOR "" newCondition nodes]
    else if ty = "while_statement" then do
      let condition ← (fieldOf "condition" cs).bind (fun c => c.ChildByFieldName "value")
      let newCondition ← sourceSlice sourceCode condition.StartByte condition.EndByte
      let nodes ← extractField sourceCode "body" cs
      pure [TreeNode.mk treenode.WHILE "" newCondition nodes]
    else if ty = "do_statement" then do
      let condition ← fieldOf "condition" cs
      let newCondition ← sourceSlice sourceCode condition.StartByte condition.EndByte
      let nodes ← extractField sourceCode "body" cs
      pure [TreeNode.mk treenode.DOWHILE "" newCondition nodes]
    else if ty = "declaration" then do
      let data ← sourceSlice sourceCode s e
      pure [TreeNode.mk treenode.INSTRUCTION data "" []]
    else if ty = "if_statement" then do
      let condition ← (fieldOf "condition" cs).bind (fun c => c.ChildByFieldName "value")
      let conditionString ← sourceSlice sourceCode condition.StartByte condition.EndByte
      let nodes ← extractLoop sourceCode cs
      let trueNodes := nodes.map (TreeNode.setCondition "true")
      let falseNodes ←
        (match fieldOf "alternative" cs with
          | some _ =>
            (extractField sourceCode "alternative" cs).bind fun nodes =>
              some (nodes.map (TreeNode.setCondition "false"))
          | none => some [])
      pure [TreeNode.mk treenode.IF conditionString "" (trueNodes ++ falseNodes)]
    else if ty = "case_statement" then do
      let conditionString ←
        (match fieldOf "value" cs with
          | some condition => sourceSlice sourceCode condition.StartByte condition.EndByte
          | none => some "default")
      let nodes ← extractLoop sourceCode cs
      pure [TreeNode.mk treenode.CASE "" conditionString nodes]
    else if ty = "switch_statement" then do
      let condition ← (fieldOf "condition" cs).bind (fun c => c.ChildByFieldName "value")
      let conditionString ← sourceSlice sourceCode condition.StartByte condition.EndByte
      let nodes ← extractLoop sourceCode cs
      pure [TreeNode.mk treenode.SWITCH conditionString "" nodes]
    else
      pure []
/-- The loop `for i := 0; i < int(node.NamedChildCount()); i++` of
`extractNodes`, run over the child list of `node`: anonymous children are not
visited, and every named child appends its summary nodes to `bodyNodes`. -/
def extractLoop (sourceCode : List Char) : List Node → Option (List TreeNode)
  | [] => some []
  | child :: rest =>
    if child.IsNamed then do
      let nodes ← extractChild sourceCode child
      let bodyNodes ← extractLoop sourceCode rest
      pure (nodes ++ bodyNodes)
    else extractLoop sourceCode rest
/-- The call `extractNodes(node.ChildByFieldName(name), sourceCode)` where `cs`
is the child list of `node`; the lookup returning `nil` makes the call fault. -/
def extractField (sourceCode : List Char) (name : String) : List Node → Option (List TreeNode)
  | [] => none
  | .mk _ f _ _ _ cs :: rest =>
    if f = some name then extractLoop sourceCode cs
    else extractField sourceCode name rest
end

/-- The function `extractNodes(node, sourceCode)` for a non-nil `node`. -/
def extractNodes (node : Node) (sourceCode : List Char) : Option (List TreeNode) :=
  extractLoop sourceCode node.children

mutual
/-- The function `findFunctionNodes(node, sourceCode)` for a non-nil `node`. -/
def findFunctionNodes (sourceCode : List Char) : Node → Option (List TreeNode)
  | .mk ty _ _ _ _ cs => do
    let functions ←
      if isFunctionNode ty then do
        let functionName ← fieldOf "declarator" cs
        let functionSignature ← sourceSlice sourceCode functionName.StartByte functionName.EndByte
        let nodes ← extractField sourceCode "body" cs
        pure [TreeNode.mk "function" functionSignature "" nodes]
      else pure []
    let found ← findFunctionLoop sourceCode cs
    pure (functions ++ found)
/-- The loop over the named children in `findFunctionNodes`. -/
def findFunctionLoop (sourceCode : List Char) : List Node → Option (List TreeNode)
  | [] => some []
  | child :: rest =>
    if child.IsNamed then do
      let fs ← findFunctionNodes sourceCode child
      let found ← findFunctionLoop sourceCode rest
      pure (fs ++ found)
    else findFunctionLoop sourceCode rest
end

/-! ## Specification-side definitions -/

mutual
/-- The nodes reachable from a node through named children, the node itself
first, in depth-first pre-order. -/
def Node.preorder : Node → List Node
  | .mk ty f nm s e cs => .mk ty f nm s e cs :: preorderList cs
/-- Pre-order enumeration below each named node of a child list. -/
def preorderList : List Node → List Node
  | [] => []
  | c :: rest => if c.IsNamed then c.preorder ++ preorderList rest else preorderList rest
end

mutual
/-- A node and everything below it, through named and anonymous children
alike, in pre-order. -/
def Node.descendants : Node → List Node
  | .mk ty f nm s e cs => .mk ty f nm s e cs :: descendantsList cs
/-- Everything at or below the nodes of a child list. -/
def descendantsList : List Node → List Node
  | [] => []
  | c :: rest => c.descendants ++ descendantsList rest
end

/-- The shape of trees the parser builds: an anonymous node is a token, a leaf
whose type tag is a piece of punctuation or a keyword. -/
def anonymousAreTokens (root : Node) : Prop :=
  ∀ n ∈ root.descendants, n.IsNamed = false →
    n.children = [] ∧ isFunctionNode n.Type_ = false

/-- The nodes typed `function_definition` or `function_declaration`, in
pre-order. -/
def functionNodes (root : Node) : List Node :=
  root.preorder.filter (fun n => isFunctionNode n.Type_)

/-- The summary node the specification prescribes for one function node. -/
def functionSummary (sourceCode : List Char) (n : Node) : Option TreeNode := do
  let declarator ← n.ChildByFieldName "declarator"
  let text ← sourceSlice sourceCode declarator.StartByte declarator.EndByte
  let body ← n.ChildByFieldName "body"
  let nodes ← extractNodes body sourceCode
  pure (TreeNode.mk "function" text "" nodes)

/-- Type tags with a row of their own in the classification `switch`. -/
def recognised (ty : String) : Bool :=
  ty == "compound_statement" || ty == "return_statement" || ty == "expression_statement"
    || ty == "declaration" || ty == "for_statement" || ty == "while_statement"
    || ty == "do_statement" || ty == "if_statement" || ty == "switch_statement"
    || ty == "case_statement"

/-- Type tags emitted as a leaf `instruction`. -/
def isInstruction (ty : String) : Bool :=
  ty == "return_statement" || ty == "expression_statement" || ty == "declaration"

/-- The kinds `extractNodes` can emit. -/
def bodyKinds : List String :=
  [treenode.INSTRUCTION, treenode.FOR, treenode.WHILE, treenode.DOWHILE, treenode.IF,
    treenode.SWITCH, treenode.CASE]

/-- A node with its child list replaced. -/
def Node.withChildren : Node → List Node → Node
  | .mk ty f nm s e _, cs => .mk ty f nm s e cs

/-- A text that is a contiguous slice `sourceCode[a:b]` of the source. -/
def IsSlice (sourceCode : List Char) (s : String) : Prop :=
  ∃ a b, sourceSlice sourceCode a b = some s

/-- The text fields of a summary node come from the source or are one of the
literals the program writes: `Data` is empty or a slice of the source, and
`Condition` is empty, "true", "false", "default" or a slice of the source. -/
def textFromSource (sourceCode : List Char) (t : TreeNode) : Prop :=
  (t.Data = "" ∨ IsSlice sourceCode t.Data) ∧
    (t.Condition = "" ∨ t.Condition = "true" ∨ t.Condition = "false" ∨
      t.Condition = "default" ∨ IsSlice sourceCode t.Condition)

/-- The row of the `switch` for `c` calls `extractNodes` on `m`: on `c` itself
for a block, an `if`, a `case` or a `switch`, on the `body` field for a loop,
and on the `alternative` field for an `if`. -/
def Calls (c m : Node) : Prop :=
  ((c.Type_ = "compound_statement" ∨ c.Type_ = "if_statement" ∨
      c.Type_ = "case_statement" ∨ c.Type_ = "switch_statement") ∧ m = c) ∨
    ((c.Type_ = "for_statement" ∨ c.Type_ = "while_statement" ∨ c.Type_ = "do_statement") ∧
      c.ChildByFieldName "body" = some m) ∨
    (c.Type_ = "if_statement" ∧ c.ChildByFieldName "alternative" = some m)

/-- The nodes classified while `extractNodes` builds the output of `n`: the
named children of `n`, and the named children of every node on which the row
of a classified node calls `extractNodes`. -/
inductive Reached (n : Node) : Node → Prop
  | child (c : Node) : c ∈ n.namedChildren → Reached n c
  | nested (c m d : Node) : Reached n c → Calls c m → d ∈ m.namedChildren → Reached n d

/-- The number of summary nodes, at all depths, of an output sequence. -/
def summaryCount (ns : List TreeNode) : Nat :=
  (subtrees ns).length

/-- The number of parse-tree nodes strictly below a node. -/
def Node.properDescendants (n : Node) : Nat :=
  (descendantsList n.children).length

/-- No `if_statement` at or below `n` holds its `alternative` label on a named
node of recognised type: the else branch sits inside a wrapper that the pass
over the named children of the `if_statement` drops. -/
def alternativesWrapped (n : Node) : Prop :=
  ∀ m ∈ n.descendants, m.Type_ = "if_statement" →
    ∀ a, m.ChildByFieldName "alternative" = some a →
      a.IsNamed = false ∨ recognised a.Type_ = false

/-- Executable check of `alternativesWrapped`. -/
def alternativesWrappedCheck (n : Node) : Bool :=
  n.descendants.all fun m =>
    m.Type_ != "if_statement" ||
      (match m.ChildByFieldName "alternative" with
        | none => true
        | some a => !a.IsNamed || !recognised a.Type_)

/-! ## Example inputs -/

/-- An anonymous token (punctuation or keyword) spanning bytes `a` to `b`. -/
def token (ty : String) (a b : Nat) : Node :=
  .mk ty none false a b []

/-- Source text of a function with a function nested in its body. -/
def nestedSrc : List Char :=
  "int f() \x7b int g() \x7b return 1; \x7d return 2; \x7d".toList

/-- The body block of the inner definition of `nestedSrc`. -/
def nestedInnerBody : Node :=
  .mk "compound_statement" (some "body") true 18 31
    [ token "\x7b" 18 19,
      .mk "return_statement" none true 20 29 [],
      token "\x7d" 30 31 ]

/-- The inner definition of `g` in `nestedSrc`. -/
def nestedInner : Node :=
  .mk "function_definition" none true 10 31
    [ .mk "primitive_type" (some "type") true 10 13 [],
      .mk "function_declarator" (some "declarator") true 14 17 [],
      nestedInnerBody ]

/-- The outer definition of `f`, whose body holds `nestedInner`. -/
def nestedOuter : Node :=
  .mk "function_definition" none true 0 43
    [ .mk "primitive_type" (some "type") true 0 3 [],
      .mk "function_declarator" (some "declarator") true 4 7 [],
      .mk "compound_statement" (some "body") true 8 43
        [ token "\x7b" 8 9,
          nestedInner,
          .mk "return_statement" none true 32 41 [],
          token "\x7d" 42 43 ] ]

/-- Parse tree of `nestedSrc`. -/
def nestedTree : Node :=
  .mk "translation_unit" none true 0 43 [nestedOuter]

/-- Source text of the if/else scenario. -/
def ifElseSrc : List Char :=
  "if (x > 0) \x7b y = 1; \x7d else \x7b y = -1; \x7d".toList

/-- The condition `(x > 0)` of `ifElseSrc`, with its `value` sub-field. -/
def ifElseCondition : Node :=
  .mk "condition_clause" (some "condition") true 3 10
    [ token "(" 3 4,
      .mk "binary_expression" (some "value") true 4 9 [],
      token ")" 9 10 ]

/-- The consequence block of `ifElseSrc`. -/
def ifElseConsequence : Node :=
  .mk "compound_statement" (some "consequence") true 11 21
    [ token "\x7b" 11 12,
      .mk "expression_statement" none true 13 19 [],
      token "\x7d" 20 21 ]

/-- The else block of `ifElseSrc`, held under field label `f`. -/
def ifElseBlock (f : Option String) : Node :=
  .mk "compound_statement" f true 27 38
    [ token "\x7b" 27 28,
      .mk "expression_statement" none true 29 36 [],
      token "\x7d" 37 38 ]

/-- The else branch of `ifElseSrc` wrapped in an `else_clause` node. -/
def ifElseClause : Node :=
  .mk "else_clause" (some "alternative") true 22 38
    [ token "else" 22 26, ifElseBlock none ]

/-- Parse tree of `ifElseSrc` in a grammar that wraps the else branch in an
`else_clause` node carrying the `alternative` label. -/
def ifElseWrapped : Node :=
  .mk "if_statement" none true 0 38
    [ token "if" 0 2,
      ifElseCondition,
      ifElseConsequence,
      ifElseClause ]

/-- Parse tree of `ifElseSrc` in a grammar that labels the else branch
statement itself as `alternative`. -/
def ifElseDirect : Node :=
  .mk "if_statement" none true 0 38
    [ token "if" 0 2,
      ifElseCondition,
      ifElseConsequence,
      token "else" 22 26,
      ifElseBlock (some "alternative") ]

/-- A block holding the statement `ifElseWrapped`. -/
def ifElseBody : Node :=
  .mk "compound_statement" (some "body") true 0 38 [ifElseWrapped]

/-- Source text of a loop directly inside an if branch. -/
def ifWhileSrc : List Char :=
  "if (a) \x7b while (i < n) \x7b i++; \x7d \x7d".toList

/-- Parse tree of `ifWhileSrc`. -/
def ifWhileTree : Node :=
  .mk "if_statement" none true 0 33
    [ token "if" 0 2,
      .mk "condition_clause" (some "condition") true 3 6
        [ token "(" 3 4, .mk "identifier" (some "value") true 4 5 [], token ")" 5 6 ],
      .mk "compound_statement" (some "consequence") true 7 33
        [ token "\x7b" 7 8,
          .mk "while_statement" none true 9 31
            [ token "while" 9 14,
              .mk "condition_clause" (some "condition") true 15 22
                [ token "(" 15 16,
                  .mk "binary_expression" (some "value") true 16 21 [],
                  token ")" 21 22 ],
              .mk "compound_statement" (some "body") true 23 31
                [ token "\x7b" 23 24,
                  .mk "expression_statement" none true 25 29 [],
                  token "\x7d" 30 31 ] ],
          token "\x7d" 32 33 ] ]

/-- A block whose only child is the block `ifElseConsequence`. -/
def nestedBlock : Node :=
  .mk "compound_statement" (some "body") true 11 21 [ifElseConsequence]

/-- Source text of the for-loop scenario. -/
def forSrc : List Char :=
  "for (int i = 0; i < n; i++) \x7b sum += i; \x7d".toList

/-- The body block of `forSrc`. -/
def forBody : Node :=
  .mk "compound_statement" (some "body") true 28 41
    [ token "\x7b" 28 29,
      .mk "expression_statement" none true 30 39 [],
      token "\x7d" 40 41 ]

/-- Parse tree of `forSrc`. -/
def forTree : Node :=
  .mk "for_statement" none true 0 41
    [ token "for" 0 3,
      token "(" 4 5,
      .mk "declaration" (some "initializer") true 5 15 [],
      .mk "binary_expression" (some "condition") true 16 21 [],
      token ";" 21 22,
      .mk "update_expression" (some "update") true 23 26 [],
      token ")" 26 27,
      forBody ]

/-- Source text of the switch scenario. -/
def switchSrc : List Char :=
  "switch (v) \x7b case 1: break; default: break; \x7d".toList

/-- The label `case 1: break;` of `switchSrc`. -/
def caseOne : Node :=
  .mk "case_statement" none true 13 27
    [ token "case" 13 17,
      .mk "number_literal" (some "value") true 18 19 [],
      token ":" 19 20,
      .mk "break_statement" none true 21 27 [] ]

/-- The label `default: break;` of `switchSrc`. -/
def caseDefault : Node :=
  .mk "case_statement" none true 28 43
    [ token "default" 28 35,
      token ":" 35 36,
      .mk "break_statement" none true 37 43 [] ]

/-- Source text of the scenario with a single `return`. -/
def addSrc : List Char :=
  "int add(int a, int b) \x7b return a + b; \x7d".toList

/-- The body block of `addSrc`; the `return` statement has an expression below
it. -/
def addBody : Node :=
  .mk "compound_statement" (some "body") true 22 39
    [ token "\x7b" 22 23,
      .mk "return_statement" none true 24 37
        [ token "return" 24 30,
          .mk "binary_expression" none true 31 36 [],
          token ";" 36 37 ],
      token "\x7d" 38 39 ]

/-- Parse tree of `addSrc`. -/
def addTree : Node :=
  .mk "translation_unit" none true 0 39
    [ .mk "function_definition" none true 0 39
        [ .mk "primitive_type" (some "type") true 0 3 [],
          .mk "function_declarator" (some "declarator") true 4 21 [],
          addBody ] ]

/-- A parenthesised condition spanning bytes `a` to `b`, with its `value`
sub-field one byte inside on each side. -/
def conditionClause (a b : Nat) : Node :=
  .mk "condition_clause" (some "condition") true a b
    [ token "(" a (a + 1),
      .mk "binary_expression" (some "value") true (a + 1) (b - 1) [],
      token ")" (b - 1) b ]

/-- Source text of a `while` loop with an unbraced body. -/
def whileSingleSrc : List Char :=
  "while (i < n) i++;".toList

/-- Parse tree of `whileSingleSrc`: the `body` field is the statement itself. -/
def whileSingleTree : Node :=
  .mk "while_statement" none true 0 18
    [ token "while" 0 5,
      conditionClause 6 13,
      .mk "expression_statement" (some "body") true 14 18
        [ .mk "update_expression" none true 14 17 [], token ";" 17 18 ] ]

/-- Source text of an `if` with an unbraced consequence. -/
def ifSingleSrc : List Char :=
  "if (a) i++;".toList

/-- Parse tree of `ifSingleSrc`: the `consequence` field is the statement
itself. -/
def ifSingleTree : Node :=
  .mk "if_statement" none true 0 11
    [ token "if" 0 2,
      conditionClause 3 6,
      .mk "expression_statement" (some "consequence") true 7 11
        [ .mk "update_expression" none true 7 10 [], token ";" 10 11 ] ]

/-- Source text of a do-while loop. -/
def doSrc : List Char :=
  "do \x7b i++; \x7d while (i < n);".toList

/-- Parse tree of `doSrc`: the `condition` field is a parenthesised expression
without any `value` sub-field. -/
def doTree : Node :=
  .mk "do_statement" none true 0 26
    [ token "do" 0 2,
      .mk "compound_statement" (some "body") true 3 11
        [ token "\x7b" 3 4,
          .mk "expression_statement" none true 5 9 [],
          token "\x7d" 10 11 ],
      token "while" 12 17,
      .mk "parenthesized_expression" (some "condition") true 18 25
        [ token "(" 18 19, .mk "binary_expression" none true 19 24 [], token ")" 24 25 ],
      token ";" 25 26 ]

/-- Source text of a `for` loop without a condition. -/
def forNoConditionSrc : List Char :=
  "for (int i = 0; ; i++) \x7b \x7d".toList

/-- Parse tree of `forNoConditionSrc`: `initializer`, `update` and `body`
fields, no `condition` field. -/
def forNoConditionTree : Node :=
  .mk "for_statement" none true 0 26
    [ token "for" 0 3,
      token "(" 4 5,
      .mk "declaration" (some "initializer") true 5 15 [],
      token ";" 16 17,
      .mk "update_expression" (some "update") true 18 21 [],
      token ")" 21 22,
      .mk "compound_statement" (some "body") true 23 26
        [ token "\x7b" 23 24, token "\x7d" 25 26 ] ]

/-- A block holding the statement `forNoConditionTree`. -/
def forNoConditionBody : Node :=
  .mk "compound_statement" (some "body") true 0 26 [forNoConditionTree]

/-- The body block of `switchSrc`. -/
def switchBody : Node :=
  .mk "compound_statement" (some "body") true 11 45
    [ token "\x7b" 11 12, caseOne, caseDefault, token "\x7d" 44 45 ]

/-- The condition `(v)` of `switchSrc`. -/
def switchCondition : Node :=
  .mk "condition_clause" (some "condition") true 7 10
    [ token "(" 7 8, .mk "identifier" (some "value") true 8 9 [], token ")" 9 10 ]

/-- Parse tree of `switchSrc`. -/
def switchTree : Node :=
  .mk "switch_statement" none true 0 45
    [ token "switch" 0 6, switchCondition, switchBody ]

/-- Source text of a function whose body holds an `if`. -/
def plainIfSrc : List Char :=
  "void f() \x7b if (a) i++; \x7d".toList

/-- The `if` of `plainIfSrc` in a grammar whose `condition` field is a plain
parenthesised expression, without `value` sub-field. -/
def plainIf : Node :=
  .mk "if_statement" none true 11 22
    [ token "if" 11 13,
      .mk "parenthesized_expression" (some "condition") true 14 17
        [ token "(" 14 15, .mk "identifier" none true 15 16 [], token ")" 16 17 ],
      .mk "expression_statement" (some "consequence") true 18 22 [] ]

/-- The body block of `plainIfSrc`. -/
def plainIfBody : Node :=
  .mk "compound_statement" (some "body") true 9 24
    [ token "\x7b" 9 10, plainIf, token "\x7d" 23 24 ]

/-- The function definition of `plainIfSrc`. -/
def plainIfFunction : Node :=
  .mk "function_definition" none true 0 24
    [ .mk "primitive_type" (some "type") true 0 4 [],
      .mk "function_declarator" (some "declarator") true 5 8 [],
      plainIfBody ]

/-- Parse tree of `plainIfSrc`. -/
def plainIfTree : Node :=
  .mk "translation_unit" none true 0 24 [plainIfFunction]

/-- Source text of a deleted function, which has no body. -/
def deletedSrc : List Char :=
  "void f() = delete;".toList

/-- The function definition of `deletedSrc`: a declarator, no `body` field. -/
def deletedFunction : Node :=
  .mk "function_definition" none true 0 18
    [ .mk "primitive_type" (some "type") true 0 4 [],
      .mk "function_declarator" (some "declarator") true 5 8 [],
      .mk "delete_method_clause" none true 9 18 [] ]

/-- Parse tree of `deletedSrc`. -/
def deletedTree : Node :=
  .mk "translation_unit" none true 0 18 [deletedFunction]

/-- Source text of a chain of seven `if`s joined by `else`, inside a block. -/
def elseIfSrc : List Char :=
  ("\x7b if (a) x; else if (a) x; else if (a) x; else if (a) x; else if (a) x; " ++
    "else if (a) x; else if (a) x; \x7d").toList

/-- The condition `(a)` at bytes `a` to `a + 3`: its `value` sub-field is an
identifier. -/
def identifierCondition (a : Nat) : Node :=
  .mk "condition_clause" (some "condition") true a (a + 3)
    [ token "(" a (a + 1),
      .mk "identifier" (some "value") true (a + 1) (a + 2) [],
      token ")" (a + 2) (a + 3) ]

/-- The statement `x;` at bytes `a` to `a + 2`, held under label `f`: an
identifier followed by the semicolon token. -/
def identifierStatement (f : Option String) (a : Nat) : Node :=
  .mk "expression_statement" f true a (a + 2)
    [ .mk "identifier" none true a (a + 1) [],
      token ";" (a + 1) (a + 2) ]

/-- An `if (a) x;` at byte `k` held under label `f`, followed by `m` further
`else if (a) x;` links, each `if_statement` carrying the `alternative` label
itself. -/
def elseIfChain (f : Option String) : Nat → Nat → Node
  | 0, k =>
    .mk "if_statement" f true k (k + 9)
      [ token "if" k (k + 2),
        identifierCondition (k + 3),
        identifierStatement (some "consequence") (k + 7) ]
  | m + 1, k =>
    .mk "if_statement" f true k (k + 15 * (m + 1) + 9)
      [ token "if" k (k + 2),
        identifierCondition (k + 3),
        identifierStatement (some "consequence") (k + 7),
        token "else" (k + 10) (k + 14),
        elseIfChain (some "alternative") m (k + 15) ]

/-- Parse tree of `elseIfSrc`: a block holding the chain of seven `if`s. -/
def elseIfBody : Node :=
  .mk "compound_statement" (some "body") true 0 103
    [ token "\x7b" 0 1, elseIfChain none 6 2, token "\x7d" 102 103 ]

/-- Source text of a block of three leaf statements. -/
def seqSrc : List Char :=
  "\x7b int a = 1; a++; return a; \x7d".toList

/-- The declaration `int a = 1;` of `seqSrc`. -/
def seqDeclaration : Node :=
  .mk "declaration" none true 2 12
    [ .mk "primitive_type" (some "type") true 2 5 [],
      .mk "init_declarator" (some "declarator") true 6 11
        [ .mk "identifier" (some "declarator") true 6 7 [],
          token "=" 8 9,
          .mk "number_literal" (some "value") true 10 11 [] ],
      token ";" 11 12 ]

/-- The statement `a++;` of `seqSrc`. -/
def seqExpression : Node :=
  .mk "expression_statement" none true 13 17
    [ .mk "update_expression" none true 13 16
        [ .mk "identifier" (some "argument") true 13 14 [],
          .mk "++" (some "operator") false 14 16 [] ],
      token ";" 16 17 ]

/-- The statement `return a;` of `seqSrc`. -/
def seqReturn : Node :=
  .mk "return_statement" none true 18 27
    [ token "return" 18 24,
      .mk "identifier" none true 25 26 [],
      token ";" 26 27 ]

/-- Parse tree of `seqSrc`: a block of a declaration, an expression statement
and a return, in this order. -/
def seqBody : Node :=
  .mk "compound_statement" (some "body") true 0 29
    [ token "\x7b" 0 1, seqDeclaration, seqExpression, seqReturn, token "\x7d" 28 29 ]

/-- A node holding the first two statements of `seqBody`. -/
def seqHead : Node :=
  .mk "compound_statement" none true 2 17 [seqDeclaration, seqExpression]

/-- A node holding the last statement of `seqBody`. -/
def seqTail : Node :=
  .mk "compound_statement" none true 18 27 [seqReturn]

/-- A node holding the three statements of `seqBody` without its brace tokens. -/
def seqBare : Node :=
  .mk "compound_statement" none true 2 27 [seqDeclaration, seqExpression, seqReturn]

/-- Source text of a `while` whose unbraced body is an `if`. -/
def whileIfSrc : List Char :=
  "while (a) if (b) x;".toList

/-- The `if (b) x;` of `whileIfSrc`, the `body` field of the loop: a single
statement, not a block. -/
def whileIfInner : Node :=
  .mk "if_statement" (some "body") true 10 19
    [ token "if" 10 12,
      identifierCondition 13,
      identifierStatement (some "consequence") 17 ]

/-- Parse tree of `whileIfSrc`. -/
def whileIfTree : Node :=
  .mk "while_statement" none true 0 19
    [ token "while" 0 5,
      identifierCondition 6,
      whileIfInner ]

/-- Source text of a `while` with the unbraced body `x;`. -/
def whileLeafSrc : List Char :=
  "while (a) x;".toList

/-- Parse tree of `whileLeafSrc`: the `body` field is the statement `x;`
itself. -/
def whileLeafTree : Node :=
  .mk "while_statement" none true 0 12
    [ token "while" 0 5,
      identifierCondition 6,
      identifierStatement (some "body") 10 ]

/-- Source text of an `if` with the unbraced consequence `x;`. -/
def ifLeafSrc : List Char :=
  "if (a) x;".toList

/-- Parse tree of `ifLeafSrc`: the `consequence` field is the statement `x;`
itself. -/
def ifLeafTree : Node :=
  .mk "if_statement" none true 0 9
    [ token "if" 0 2,
      identifierCondition 3,
      identifierStatement (some "consequence") 7 ]

/-- Source text of an `if` with an `else`, inside a block. -/
def wrappedSrc : List Char :=
  "\x7b if (a) x; else y; \x7d".toList

/-- Parse tree of `wrappedSrc` in a grammar that wraps the else branch in an
`else_clause` node carrying the `alternative` label. -/
def wrappedBody : Node :=
  .mk "compound_statement" (some "body") true 0 21
    [ token "\x7b" 0 1,
      .mk "if_statement" none true 2 19
        [ token "if" 2 4,
          identifierCondition 5,
          identifierStatement (some "consequence") 9,
          .mk "else_clause" (some "alternative") true 12 19
            [ token "else" 12 16, identifierStatement none 17 ] ],
      token "\x7d" 20 21 ]

/-! ## Basic lemmas -/

theorem Node.children_induction {P : Node → Prop}
    (step : ∀ ty f nm s e cs, (∀ c ∈ cs, P c) → P (Node.mk ty f nm s e cs)) :
    ∀ n, P n := by
  intro n
  refine @Node.rec P (fun cs => ∀ c ∈ cs, P c) step ?_ ?_ n
  · intro c hc
    cases hc
  · intro hd tl hhd htl c hc
    rcases List.mem_cons.mp hc with rfl | h
    · exact hhd
    · exact htl c h

theorem extractLoop_nil (src : List Char) : extractLoop src [] = some [] := by
  simp [extractLoop]

theorem extractLoop_cons (src : List Char) (c : Node) (rest : List Node) :
    extractLoop src (c :: rest) =
      if c.IsNamed then
        (extractChild src c).bind fun a => (extractLoop src rest).bind fun b => some (a ++ b)
      else extractLoop src rest := by
  rw [extractLoop]
  rfl

theorem extractField_eq (src : List Char) (name : String) (cs : List Node) :
    extractField src name cs = (fieldOf name cs).bind fun n => extractNodes n src := by
  induction cs with
  | nil => simp [extractField, fieldOf]
  | cons c rest ih =>
    cases c with
    | mk ty f nm s e ccs =>
      rw [extractField, fieldOf]
      by_cases h : f = some name
      · simp [h, Node.fieldName, extractNodes, Node.children]
      · simp [h, Node.fieldName, ih]

theorem extractLoop_append (src : List Char) (xs ys : List Node) :
    extractLoop src (xs ++ ys) =
      (extractLoop src xs).bind fun a => (extractLoop src ys).bind fun b => some (a ++ b) := by
  induction xs with
  | nil => simp [extractLoop_nil]
  | cons c rest ih =>
    rw [List.cons_append, extractLoop_cons, extractLoop_cons]
    by_cases h : c.IsNamed
    · simp only [h, if_true, ih]
      cases extractChild src c <;> simp
      cases extractLoop src rest <;> simp
      cases extractLoop src ys <;> simp
    · simp only [h, ih]
      simp

theorem extractLoop_filter (src : List Char) (cs : List Node) :
    extractLoop src (cs.filter Node.IsNamed) = extractLoop src cs := by
  induction cs with
  | nil => rfl
  | cons c rest ih =>
    by_cases h : c.IsNamed
    · rw [List.filter_cons_of_pos h, extractLoop_cons, extractLoop_cons, ih]
    · rw [List.filter_cons_of_neg h, extractLoop_cons, ih]
      simp [h]

/-- The loop of `extractNodes` sees a node only through its named children. -/
theorem extractNodes_eq_namedChildren (n : Node) (src : List Char) :
    extractNodes n src = extractLoop src n.namedChildren := by
  unfold extractNodes Node.namedChildren
  exact (extractLoop_filter src n.children).symm

/-- The body of the classification `switch`, in terms of the node accessors. -/
theorem extractChild_eq (src : List Char) (n : Node) :
    extractChild src n =
      if n.Type_ = "compound_statement" then extractNodes n src
      else if n.Type_ = "return_statement" then
        (sourceSlice src n.StartByte n.EndByte).bind fun d =>
          some [TreeNode.mk treenode.INSTRUCTION d "" []]
      else if n.Type_ = "expression_statement" then
        (sourceSlice src n.StartByte n.EndByte).bind fun d =>
          some [TreeNode.mk treenode.INSTRUCTION d "" []]
      else if n.Type_ = "for_statement" then
        (n.ChildByFieldName "initializer").bind fun i =>
        (n.ChildByFieldName "condition").bind fun c =>
        (sourceSlice src i.StartByte c.EndByte).bind fun s₁ =>
        (match n.ChildByFieldName "update" with
          | some u => sourceSlice src i.StartByte u.EndByte
          | none => some s₁).bind fun s₂ =>
        ((n.ChildByFieldName "body").bind fun b => extractNodes b src).bind fun ns =>
          some [TreeNode.mk treenode.FOR "" s₂ ns]
      else if n.Type_ = "while_statement" then
        ((n.ChildByFieldName "condition").bind fun c => c.ChildByFieldName "value").bind fun v =>
        (sourceSlice src v.StartByte v.EndByte).bind fun s =>
        ((n.ChildByFieldName "body").bind fun b => extractNodes b src).bind fun ns =>
          some [TreeNode.mk treenode.WHILE "" s ns]
      else if n.Type_ = "do_statement" then
        (n.ChildByFieldName "condition").bind fun c =>
        (sourceSlice src c.StartByte c.EndByte).bind fun s =>
        ((n.ChildByFieldName "body").bind fun b => extractNodes b src).bind fun ns =>
          some [TreeNode.mk treenode.DOWHILE "" s ns]
      else if n.Type_ = "declaration" then
        (sourceSlice src n.StartByte n.EndByte).bind fun d =>
          some [TreeNode.mk treenode.INSTRUCTION d "" []]
      else if n.Type_ = "if_statement" then
        ((n.ChildByFieldName "condition").bind fun c => c.ChildByFieldName "value").bind fun v =>
        (sourceSlice src v.StartByte v.EndByte).bind fun s =>
        (extractNodes n src).bind fun ts =>
        (match n.ChildByFieldName "alternative" with
          | some a => (extractNodes a src).bind fun fs =>
              some (fs.map (TreeNode.setCondition "false"))
          | none => some []).bind fun fs =>
          some [TreeNode.mk treenode.IF s "" (ts.map (TreeNode.setCondition "true") ++ fs)]
      else if n.Type_ = "case_statement" then
        (match n.ChildByFieldName "value" with
          | some v => sourceSlice src v.StartByte v.EndByte
          | none => some "default").bind fun s =>
        (extractNodes n src).bind fun ns =>
          some [TreeNode.mk treenode.CASE "" s ns]
      else if n.Type_ = "switch_statement" then
        ((n.ChildByFieldName "condition").bind fun c => c.ChildByFieldName "value").bind fun v =>
        (sourceSlice src v.StartByte v.EndByte).bind fun s =>
        (extractNodes n src).bind fun ns =>
          some [TreeNode.mk treenode.SWITCH s "" ns]
      else some [] := by
  cases n with
  | mk ty f nm s e cs =>
    rw [extractChild]
    simp only [extractField_eq, Node.ChildByFieldName, Node.children]
    cases h : fieldOf "alternative" cs <;> rfl

theorem findFunctionLoop_cons (src : List Char) (c : Node) (rest : List Node) :
    findFunctionLoop src (c :: rest) =
      if c.IsNamed then
        (findFunctionNodes src c).bind fun a =>
          (findFunctionLoop src rest).bind fun b => some (a ++ b)
      else findFunctionLoop src rest := by
  rw [findFunctionLoop]
  rfl

theorem preorderList_cons (c : Node) (rest : List Node) :
    preorderList (c :: rest) =
      if c.IsNamed then c.preorder ++ preorderList rest else preorderList rest := by
  rw [preorderList]

theorem findFunctionLoop_eq (src : List Char) (cs : List Node)
    (ih : ∀ c ∈ cs, findFunctionNodes src c = (functionNodes c).mapM (functionSummary src)) :
    findFunctionLoop src cs =
      ((preorderList cs).filter (fun n => isFunctionNode n.Type_)).mapM (functionSummary src) := by
  induction cs with
  | nil => rfl
  | cons c rest ihr =>
    have hc := ih c (List.mem_cons_self _ _)
    have hr := ihr (fun x hx => ih x (List.mem_cons_of_mem _ hx))
    rw [findFunctionLoop_cons, preorderList_cons]
    by_cases h : c.IsNamed
    · simp only [h, if_true, List.filter_append, List.mapM_append, hc, hr, functionNodes]
      cases List.mapM (functionSummary src) (List.filter (fun n => isFunctionNode n.Type_) c.preorder) <;> simp
    · simp only [h, hr]
      simp

theorem findFunctionNodes_eq (src : List Char) (root : Node) :
    findFunctionNodes src root = (functionNodes root).mapM (functionSummary src) := by
  induction root using Node.children_induction with
  | step ty f nm s e cs ih =>
    have hl := findFunctionLoop_eq src cs ih
    rw [findFunctionNodes, hl, functionNodes, Node.preorder, extractField_eq]
    by_cases hf : isFunctionNode ty
    · simp only [hf, if_true, List.filter_cons, Node.Type_, List.mapM_cons, functionSummary,
        Node.ChildByFieldName, Node.children]
      cases fieldOf "declarator" cs <;> simp
      rename_i d
      cases sourceSlice src d.StartByte d.EndByte <;> simp
      cases fieldOf "body" cs <;> simp
      rename_i b
      cases extractNodes b src <;> simp
    · simp only [hf, List.filter_cons, Node.Type_]
      simp

theorem mapM_option_forall₂ {α β : Type} (f : α → Option β) (l : List α)
    (h : ∀ a ∈ l, ∃ b, f a = some b) :
    ∃ out, l.mapM f = some out ∧ List.Forall₂ (fun a b => f a = some b) l out := by
  induction l with
  | nil => exact ⟨[], rfl, List.Forall₂.nil⟩
  | cons a rest ih =>
    obtain ⟨b, hb⟩ := h a (List.mem_cons_self _ _)
    obtain ⟨out, ho, hrel⟩ := ih (fun x hx => h x (List.mem_cons_of_mem _ hx))
    refine ⟨b :: out, ?_, List.Forall₂.cons hb hrel⟩
    rw [List.mapM_cons, hb, ho]
    rfl

theorem fieldOf_mem {name : String} {cs : List Node} {b : Node}
    (h : fieldOf name cs = some b) : b ∈ cs := by
  induction cs with
  | nil => simp [fieldOf] at h
  | cons c rest ih =>
    rw [fieldOf] at h
    split_ifs at h with hc
    · cases h
      exact List.mem_cons_self _ _
    · exact List.mem_cons_of_mem _ (ih h)

theorem extractLoop_forall (src : List Char) {Q : List TreeNode → Prop}
    (hnil : Q []) (happ : ∀ a b, Q a → Q b → Q (a ++ b)) (cs : List Node)
    (hcs : ∀ c ∈ cs, ∀ out, extractChild src c = some out → Q out) :
    ∀ out, extractLoop src cs = some out → Q out := by
  induction cs with
  | nil =>
    intro out h
    rw [extractLoop_nil] at h
    cases h
    exact hnil
  | cons c rest ih =>
    intro out h
    have ihr := ih (fun x hx => hcs x (List.mem_cons_of_mem _ hx))
    rw [extractLoop_cons] at h
    split_ifs at h with hc
    · cases ha : extractChild src c with
      | none => simp [ha] at h
      | some a =>
        cases hb : extractLoop src rest with
        | none => simp [ha, hb] at h
        | some b =>
          simp [ha, hb] at h
          subst h
          exact happ a b (hcs c (List.mem_cons_self _ _) a ha) (ihr b hb)
    · exact ihr out h

/-- Induction over the recursion of `extractNodes`: a property of output
sequences that holds of the empty sequence, is closed under concatenation, and
is established by one classification step from the outputs of the recursive
calls, holds of every output. -/
theorem extract_induct (src : List Char) {Q : List TreeNode → Prop}
    (hnil : Q []) (happ : ∀ a b, Q a → Q b → Q (a ++ b))
    (hnode : ∀ n out, extractChild src n = some out →
      (∀ ns, extractNodes n src = some ns → Q ns) →
      (∀ name b ns, n.ChildByFieldName name = some b → extractNodes b src = some ns → Q ns) →
      Q out) :
    ∀ n, (∀ out, extractChild src n = some out → Q out) ∧
      (∀ out, extractNodes n src = some out → Q out) := by
  intro n
  induction n using Node.children_induction with
  | step ty f nm s e cs ih =>
    have hN : ∀ out, extractNodes (Node.mk ty f nm s e cs) src = some out → Q out :=
      extractLoop_forall src hnil happ cs (fun c hc => (ih c hc).1)
    refine ⟨fun out h => hnode _ out h hN ?_, hN⟩
    intro name b ns hb hns
    exact (ih b (fieldOf_mem hb)).2 ns hns

theorem subtrees_cons (t : TreeNode) (ts : List TreeNode) :
    subtrees (t :: ts) = t.subtree ++ subtrees ts := by
  rw [subtrees]

theorem subtree_mk (t d c : String) (ns : List TreeNode) :
    (TreeNode.mk t d c ns).subtree = TreeNode.mk t d c ns :: subtrees ns := by
  rw [TreeNode.subtree]

theorem subtrees_append (a b : List TreeNode) :
    subtrees (a ++ b) = subtrees a ++ subtrees b := by
  induction a with
  | nil => simp [subtrees]
  | cons t ts ih => simp [subtrees_cons, ih]

theorem mem_subtrees_singleton {x : TreeNode} {t d c : String} {ns : List TreeNode} :
    x ∈ subtrees [TreeNode.mk t d c ns] ↔ x = TreeNode.mk t d c ns ∨ x ∈ subtrees ns := by
  simp [subtrees_cons, subtree_mk, subtrees]

theorem mem_subtrees_map_setCondition {x : TreeNode} {v : String} {ns : List TreeNode} :
    x ∈ subtrees (ns.map (TreeNode.setCondition v)) ↔
      (∃ y ∈ ns, x = y.setCondition v) ∨ ∃ y ∈ ns, x ∈ subtrees y.Nodes := by
  induction ns with
  | nil => simp [subtrees]
  | cons t ts ih =>
    cases t with
    | mk ty d c kids =>
      simp only [List.map_cons, subtrees_cons, List.mem_append, ih, TreeNode.setCondition,
        subtree_mk, List.mem_cons, TreeNode.Nodes]
      constructor
      · rintro ((h | h) | (⟨y, hy, h⟩ | ⟨y, hy, h⟩))
        · exact Or.inl ⟨_, Or.inl rfl, by simp [h, TreeNode.setCondition]⟩
        · exact Or.inr ⟨_, Or.inl rfl, by simpa [TreeNode.Nodes] using h⟩
        · exact Or.inl ⟨y, Or.inr hy, h⟩
        · exact Or.inr ⟨y, Or.inr hy, h⟩
      · rintro (⟨y, hy | hy, h⟩ | ⟨y, hy | hy, h⟩)
        · subst hy
          exact Or.inl (Or.inl (by simpa [TreeNode.setCondition] using h))
        · exact Or.inr (Or.inl ⟨y, hy, h⟩)
        · subst hy
          exact Or.inl (Or.inr (by simpa [TreeNode.Nodes] using h))
        · exact Or.inr (Or.inr ⟨y, hy, h⟩)

theorem mem_subtrees_of_mem {x : TreeNode} {ns : List TreeNode} (h : x ∈ ns) :
    x ∈ subtrees ns := by
  induction ns with
  | nil => cases h
  | cons t ts ih =>
    rw [subtrees_cons]
    rcases List.mem_cons.mp h with rfl | h
    · cases x with
      | mk ty d c kids => simp [subtree_mk]
    · exact List.mem_append_right _ (ih h)

theorem mem_subtrees_nodes {x y : TreeNode} {ns : List TreeNode} (hy : y ∈ ns)
    (hx : x ∈ subtrees y.Nodes) : x ∈ subtrees ns := by
  induction ns with
  | nil => cases hy
  | cons t ts ih =>
    rw [subtrees_cons]
    rcases List.mem_cons.mp hy with rfl | h
    · cases y with
      | mk ty d c kids =>
        rw [subtree_mk]
        exact List.mem_append_left _ (List.mem_cons_of_mem _ hx)
    · exact List.mem_append_right _ (ih h)

theorem extractChild_compound (src : List Char) (n : Node)
    (h : n.Type_ = "compound_statement") : extractChild src n = extractNodes n src := by
  rw [extractChild_eq, h]
  rfl

theorem extractChild_instruction (src : List Char) (n : Node)
    (h : isInstruction n.Type_ = true) :
    extractChild src n =
      (sourceSlice src n.StartByte n.EndByte).bind fun d =>
        some [TreeNode.mk treenode.INSTRUCTION d "" []] := by
  simp only [isInstruction, Bool.or_eq_true, beq_iff_eq] at h
  rcases h with (h | h) | h <;> · rw [extractChild_eq, h]; rfl

theorem extractChild_for (src : List Char) (n : Node) (h : n.Type_ = "for_statement") :
    extractChild src n =
      (n.ChildByFieldName "initializer").bind fun i =>
      (n.ChildByFieldName "condition").bind fun c =>
      (sourceSlice src i.StartByte c.EndByte).bind fun s₁ =>
      (match n.ChildByFieldName "update" with
        | some u => sourceSlice src i.StartByte u.EndByte
        | none => some s₁).bind fun s₂ =>
      ((n.ChildByFieldName "body").bind fun b => extractNodes b src).bind fun ns =>
        some [TreeNode.mk treenode.FOR "" s₂ ns] := by
  rw [extractChild_eq, h]
  rfl

theorem extractChild_while (src : List Char) (n : Node) (h : n.Type_ = "while_statement") :
    extractChild src n =
      ((n.ChildByFieldName "condition").bind fun c => c.ChildByFieldName "value").bind fun v =>
      (sourceSlice src v.StartByte v.EndByte).bind fun s =>
      ((n.ChildByFieldName "body").bind fun b => extractNodes b src).bind fun ns =>
        some [TreeNode.mk treenode.WHILE "" s ns] := by
  rw [extractChild_eq, h]
  rfl

theorem extractChild_do (src : List Char) (n : Node) (h : n.Type_ = "do_statement") :
    extractChild src n =
      (n.ChildByFieldName "condition").bind fun c =>
      (sourceSlice src c.StartByte c.EndByte).bind fun s =>
      ((n.ChildByFieldName "body").bind fun b => extractNodes b src).bind fun ns =>
        some [TreeNode.mk treenode.DOWHILE "" s ns] := by
  rw [extractChild_eq, h]
  rfl

theorem extractChild_if (src : List Char) (n : Node) (h : n.Type_ = "if_statement") :
    extractChild src n =
      ((n.ChildByFieldName "condition").bind fun c => c.ChildByFieldName "value").bind fun v =>
      (sourceSlice src v.StartByte v.EndByte).bind fun s =>
      (extractNodes n src).bind fun ts =>
      (match n.ChildByFieldName "alternative" with
        | some a => (extractNodes a src).bind fun fs =>
            some (fs.map (TreeNode.setCondition "false"))
        | none => some []).bind fun fs =>
        some [TreeNode.mk treenode.IF s "" (ts.map (TreeNode.setCondition "true") ++ fs)] := by
  rw [extractChild_eq, h]
  rfl

theorem extractChild_case (src : List Char) (n : Node) (h : n.Type_ = "case_statement") :
    extractChild src n =
      (match n.ChildByFieldName "value" with
        | some v => sourceSlice src v.StartByte v.EndByte
        | none => some "default").bind fun s =>
      (extractNodes n src).bind fun ns =>
        some [TreeNode.mk treenode.CASE "" s ns] := by
  rw [extractChild_eq, h]
  rfl

theorem extractChild_switch (src : List Char) (n : Node) (h : n.Type_ = "switch_statement") :
    extractChild src n =
      ((n.ChildByFieldName "condition").bind fun c => c.ChildByFieldName "value").bind fun v =>
      (sourceSlice src v.StartByte v.EndByte).bind fun s =>
      (extractNodes n src).bind fun ns =>
        some [TreeNode.mk treenode.SWITCH s "" ns] := by
  rw [extractChild_eq, h]
  rfl

theorem extractChild_unrecognised (src : List Char) (n : Node)
    (h : recognised n.Type_ = false) : extractChild src n = some [] := by
  simp only [recognised, Bool.or_eq_false_iff, beq_eq_false_iff_ne, ne_eq] at h
  obtain ⟨⟨⟨⟨⟨⟨⟨⟨⟨h1, h2⟩, h3⟩, h4⟩, h5⟩, h6⟩, h7⟩, h8⟩, h9⟩, h10⟩ := h
  rw [extractChild_eq, if_neg h1, if_neg h2, if_neg h3, if_neg h5, if_neg h6, if_neg h7,
    if_neg h4, if_neg h8, if_neg h10, if_neg h9]

theorem type_cases (ty : String) :
    ty = "compound_statement" ∨ isInstruction ty = true ∨ ty = "for_statement" ∨
      ty = "while_statement" ∨ ty = "do_statement" ∨ ty = "if_statement" ∨
      ty = "case_statement" ∨ ty = "switch_statement" ∨ recognised ty = false := by
  by_cases h : recognised ty = true
  · simp only [recognised, Bool.or_eq_true, beq_iff_eq] at h
    simp only [isInstruction, Bool.or_eq_true, beq_iff_eq]
    tauto
  · simp only [Bool.not_eq_true] at h
    simp [h]

/-- Inversion of one classification step: a successful step is one of the rows
of the `switch`, with the intermediate values it computed. -/
theorem extractChild_inv (src : List Char) (n : Node) (out : List TreeNode)
    (h : extractChild src n = some out) :
    (n.Type_ = "compound_statement" ∧ extractNodes n src = some out) ∨
    (isInstruction n.Type_ = true ∧ ∃ d, sourceSlice src n.StartByte n.EndByte = some d ∧
      out = [TreeNode.mk treenode.INSTRUCTION d "" []]) ∨
    (n.Type_ = "for_statement" ∧ ∃ i c s₁ s₂ b ns,
      n.ChildByFieldName "initializer" = some i ∧ n.ChildByFieldName "condition" = some c ∧
      sourceSlice src i.StartByte c.EndByte = some s₁ ∧
      ((n.ChildByFieldName "update" = none ∧ s₂ = s₁) ∨
        ∃ u, n.ChildByFieldName "update" = some u ∧
          sourceSlice src i.StartByte u.EndByte = some s₂) ∧
      n.ChildByFieldName "body" = some b ∧ extractNodes b src = some ns ∧
      out = [TreeNode.mk treenode.FOR "" s₂ ns]) ∨
    (n.Type_ = "while_statement" ∧ ∃ c v s b ns,
      n.ChildByFieldName "condition" = some c ∧ c.ChildByFieldName "value" = some v ∧
      sourceSlice src v.StartByte v.EndByte = some s ∧
      n.ChildByFieldName "body" = some b ∧ extractNodes b src = some ns ∧
      out = [TreeNode.mk treenode.WHILE "" s ns]) ∨
    (n.Type_ = "do_statement" ∧ ∃ c s b ns,
      n.ChildByFieldName "condition" = some c ∧
      sourceSlice src c.StartByte c.EndByte = some s ∧
      n.ChildByFieldName "body" = some b ∧ extractNodes b src = some ns ∧
      out = [TreeNode.mk treenode.DOWHILE "" s ns]) ∨
    (n.Type_ = "if_statement" ∧ ∃ c v s ts fs,
      n.ChildByFieldName "condition" = some c ∧ c.ChildByFieldName "value" = some v ∧
      sourceSlice src v.StartByte v.EndByte = some s ∧
      extractNodes n src = some ts ∧
      ((n.ChildByFieldName "alternative" = none ∧ fs = []) ∨
        ∃ a, n.ChildByFieldName "alternative" = some a ∧ extractNodes a src = some fs) ∧
      out = [TreeNode.mk treenode.IF s ""
        (ts.map (TreeNode.setCondition "true") ++ fs.map (TreeNode.setCondition "false"))]) ∨
    (n.Type_ = "case_statement" ∧ ∃ s ns,
      ((n.ChildByFieldName "value" = none ∧ s = "default") ∨
        ∃ v, n.ChildByFieldName "value" = some v ∧
          sourceSlice src v.StartByte v.EndByte = some s) ∧
      extractNodes n src = some ns ∧
      out = [TreeNode.mk treenode.CASE "" s ns]) ∨
    (n.Type_ = "switch_statement" ∧ ∃ c v s ns,
      n.ChildByFieldName "condition" = some c ∧ c.ChildByFieldName "value" = some v ∧
      sourceSlice src v.StartByte v.EndByte = some s ∧
      extractNodes n src = some ns ∧
      out = [TreeNode.mk treenode.SWITCH s "" ns]) ∨
    (recognised n.Type_ = false ∧ out = []) := by
  rcases type_cases n.Type_ with hty | hty | hty | hty | hty | hty | hty | hty | hty
  · rw [extractChild_compound src n hty] at h
    exact Or.inl ⟨hty, h⟩
  · rw [extractChild_instruction src n hty] at h
    refine Or.inr (Or.inl ⟨hty, ?_⟩)
    obtain ⟨d, hd, ho⟩ := Option.bind_eq_some.mp h
    exact ⟨d, hd, (Option.some.inj ho).symm⟩
  · rw [extractChild_for src n hty] at h
    refine Or.inr (Or.inr (Or.inl ⟨hty, ?_⟩))
    obtain ⟨i, hi, h⟩ := Option.bind_eq_some.mp h
    obtain ⟨c, hc, h⟩ := Option.bind_eq_some.mp h
    obtain ⟨s₁, hs₁, h⟩ := Option.bind_eq_some.mp h
    obtain ⟨s₂, hs₂, h⟩ := Option.bind_eq_some.mp h
    obtain ⟨ns, hns, h⟩ := Option.bind_eq_some.mp h
    obtain ⟨b, hb, hns⟩ := Option.bind_eq_some.mp hns
    refine ⟨i, c, s₁, s₂, b, ns, hi, hc, hs₁, ?_, hb, hns, (Option.some.inj h).symm⟩
    cases hu : n.ChildByFieldName "update" with
    | none =>
      rw [hu] at hs₂
      exact Or.inl ⟨rfl, (Option.some.inj hs₂).symm⟩
    | some u =>
      rw [hu] at hs₂
      exact Or.inr ⟨u, rfl, hs₂⟩
  · rw [extractChild_while src n hty] at h
    refine Or.inr (Or.inr (Or.inr (Or.inl ⟨hty, ?_⟩)))
    obtain ⟨v, hv, h⟩ := Option.bind_eq_some.mp h
    obtain ⟨c, hc, hv⟩ := Option.bind_eq_some.mp hv
    obtain ⟨s, hs, h⟩ := Option.bind_eq_some.mp h
    obtain ⟨ns, hns, h⟩ := Option.bind_eq_some.mp h
    obtain ⟨b, hb, hns⟩ := Option.bind_eq_some.mp hns
    exact ⟨c, v, s, b, ns, hc, hv, hs, hb, hns, (Option.some.inj h).symm⟩
  · rw [extractChild_do src n hty] at h
    refine Or.inr (Or.inr (Or.inr (Or.inr (Or.inl ⟨hty, ?_⟩))))
    obtain ⟨c, hc, h⟩ := Option.bind_eq_some.mp h
    obtain ⟨s, hs, h⟩ := Option.bind_eq_some.mp h
    obtain ⟨ns, hns, h⟩ := Option.bind_eq_some.mp h
    obtain ⟨b, hb, hns⟩ := Option.bind_eq_some.mp hns
    exact ⟨c, s, b, ns, hc, hs, hb, hns, (Option.some.inj h).symm⟩
  · rw [extractChild_if src n hty] at h
    refine Or.inr (Or.inr (Or.inr (Or.inr (Or.inr (Or.inl ⟨hty, ?_⟩)))))
    obtain ⟨v, hv, h⟩ := Option.bind_eq_some.mp h
    obtain ⟨c, hc, hv⟩ := Option.bind_eq_some.mp hv
    obtain ⟨s, hs, h⟩ := Option.bind_eq_some.mp h
    obtain ⟨ts, hts, h⟩ := Option.bind_eq_some.mp h
    obtain ⟨fs, hfs, h⟩ := Option.bind_eq_some.mp h
    cases ha : n.ChildByFieldName "alternative" with
    | none =>
      rw [ha] at hfs
      cases Option.some.inj hfs
      exact ⟨c, v, s, ts, [], hc, hv, hs, hts, Or.inl ⟨rfl, rfl⟩, (Option.some.inj h).symm⟩
    | some a =>
      rw [ha] at hfs
      obtain ⟨fs', hfs', hfs⟩ := Option.bind_eq_some.mp hfs
      cases Option.some.inj hfs
      exact ⟨c, v, s, ts, fs', hc, hv, hs, hts, Or.inr ⟨a, rfl, hfs'⟩,
        (Option.some.inj h).symm⟩
  · rw [extractChild_case src n hty] at h
    refine Or.inr (Or.inr (Or.inr (Or.inr (Or.inr (Or.inr (Or.inl ⟨hty, ?_⟩))))))
    obtain ⟨s, hs, h⟩ := Option.bind_eq_some.mp h
    obtain ⟨ns, hns, h⟩ := Option.bind_eq_some.mp h
    refine ⟨s, ns, ?_, hns, (Option.some.inj h).symm⟩
    cases hv : n.ChildByFieldName "value" with
    | none =>
      rw [hv] at hs
      exact Or.inl ⟨rfl, (Option.some.inj hs).symm⟩
    | some v =>
      rw [hv] at hs
      exact Or.inr ⟨v, rfl, hs⟩
  · rw [extractChild_switch src n hty] at h
    refine Or.inr (Or.inr (Or.inr (Or.inr (Or.inr (Or.inr (Or.inr (Or.inl ⟨hty, ?_⟩)))))))
    obtain ⟨v, hv, h⟩ := Option.bind_eq_some.mp h
    obtain ⟨c, hc, hv⟩ := Option.bind_eq_some.mp hv
    obtain ⟨s, hs, h⟩ := Option.bind_eq_some.mp h
    obtain ⟨ns, hns, h⟩ := Option.bind_eq_some.mp h
    exact ⟨c, v, s, ns, hc, hv, hs, hns, (Option.some.inj h).symm⟩
  · rw [extractChild_unrecognised src n hty] at h
    exact Or.inr (Or.inr (Or.inr (Or.inr (Or.inr (Or.inr (Or.inr (Or.inr
      ⟨hty, (Option.some.inj h).symm⟩)))))))

theorem mapM_option_mem {α β : Type} (f : α → Option β) :
    ∀ (l : List α) (out : List β), l.mapM f = some out → ∀ b ∈ out, ∃ a ∈ l, f a = some b := by
  intro l
  induction l with
  | nil =>
    intro out h b hb
    have h2 : ([] : List α).mapM f = some [] := rfl
    rw [h2] at h
    cases h
    cases hb
  | cons a rest ih =>
    intro out h b hb
    rw [List.mapM_cons] at h
    cases ha : f a with
    | none =>
      rw [ha] at h
      cases h
    | some x =>
      cases hr : rest.mapM f with
      | none =>
        rw [ha, hr] at h
        cases h
      | some xs =>
        rw [ha, hr] at h
        cases h
        rcases List.mem_cons.mp hb with rfl | hb
        · exact ⟨a, List.mem_cons_self _ _, ha⟩
        · obtain ⟨a2, ha2, hf⟩ := ih xs hr b hb
          exact ⟨a2, List.mem_cons_of_mem _ ha2, hf⟩

theorem setCondition_Type (v : String) (y : TreeNode) : (y.setCondition v).Type_ = y.Type_ := by
  cases y
  rfl

theorem setCondition_Data (v : String) (y : TreeNode) : (y.setCondition v).Data = y.Data := by
  cases y
  rfl

theorem setCondition_Nodes (v : String) (y : TreeNode) :
    (y.setCondition v).Nodes = y.Nodes := by
  cases y
  rfl

theorem setCondition_Condition (v : String) (y : TreeNode) :
    (y.setCondition v).Condition = v := by
  cases y
  rfl

theorem forall_subtrees_map_setCondition {P : TreeNode → Prop} {v : String}
    {ns : List TreeNode} (hP : ∀ y, P y → P (y.setCondition v))
    (h : ∀ t ∈ subtrees ns, P t) : ∀ t ∈ subtrees (ns.map (TreeNode.setCondition v)), P t := by
  intro t ht
  rcases mem_subtrees_map_setCondition.mp ht with ⟨y, hy, rfl⟩ | ⟨y, hy, hty⟩
  · exact hP y (h y (mem_subtrees_of_mem hy))
  · exact h t (mem_subtrees_nodes hy hty)

theorem forall_subtrees_singleton {P : TreeNode → Prop} {t d c : String} {ns : List TreeNode}
    (hroot : P (TreeNode.mk t d c ns)) (h : ∀ x ∈ subtrees ns, P x) :
    ∀ x ∈ subtrees [TreeNode.mk t d c ns], P x := by
  intro x hx
  rcases mem_subtrees_singleton.mp hx with rfl | hx
  · exact hroot
  · exact h x hx

theorem forall_subtrees_append {P : TreeNode → Prop} {a b : List TreeNode}
    (ha : ∀ x ∈ subtrees a, P x) (hb : ∀ x ∈ subtrees b, P x) :
    ∀ x ∈ subtrees (a ++ b), P x := by
  intro x hx
  rw [subtrees_append] at hx
  rcases List.mem_append.mp hx with h | h
  · exact ha x h
  · exact hb x h

/-- Every summary node, at any depth, has a property `P` as soon as each row
of the `switch` builds a node with `P` (the `if` row with its tagged children)
and the branch-tag assignment keeps `P`. -/
theorem extract_forall_subtrees (src : List Char) {P : TreeNode → Prop}
    (hmk : ∀ k d c ns, k ∈ bodyKinds → k ≠ treenode.IF → P (TreeNode.mk k d c ns))
    (hif : ∀ (s : String) (ts fs : List TreeNode), P (TreeNode.mk treenode.IF s ""
      (ts.map (TreeNode.setCondition "true") ++ fs.map (TreeNode.setCondition "false"))))
    (hset : ∀ v y, P y → P (y.setCondition v)) (n : Node) :
    (∀ out, extractChild src n = some out → ∀ t ∈ subtrees out, P t) ∧
      (∀ out, extractNodes n src = some out → ∀ t ∈ subtrees out, P t) := by
  refine extract_induct src ?_ ?_ ?_ n
  · intro t ht
    simp [subtrees] at ht
  · intro a b ha hb
    exact forall_subtrees_append ha hb
  · intro n out h hN hF
    rcases extractChild_inv src n out h with ⟨_, h1⟩ | ⟨_, d, _, rfl⟩ |
      ⟨_, i, c, s₁, s₂, b, ns, _, _, _, _, hb, hns, rfl⟩ |
      ⟨_, c, v, s, b, ns, _, _, _, hb, hns, rfl⟩ |
      ⟨_, c, s, b, ns, _, _, hb, hns, rfl⟩ |
      ⟨_, c, v, s, ts, fs, _, _, _, hts, hfs, rfl⟩ |
      ⟨_, s, ns, _, hns, rfl⟩ | ⟨_, c, v, s, ns, _, _, _, hns, rfl⟩ | ⟨_, rfl⟩
    · exact hN out h1
    · exact forall_subtrees_singleton (hmk _ _ _ _ (by simp [bodyKinds]) (by decide))
        (by intro x hx; simp [subtrees] at hx)
    · exact forall_subtrees_singleton (hmk _ _ _ _ (by simp [bodyKinds]) (by decide)) (hF _ b ns hb hns)
    · exact forall_subtrees_singleton (hmk _ _ _ _ (by simp [bodyKinds]) (by decide)) (hF _ b ns hb hns)
    · exact forall_subtrees_singleton (hmk _ _ _ _ (by simp [bodyKinds]) (by decide)) (hF _ b ns hb hns)
    · refine forall_subtrees_singleton (hif _ _ _) ?_
      refine forall_subtrees_append
        (forall_subtrees_map_setCondition (hset _) (hN ts hts))
        (forall_subtrees_map_setCondition (hset _) ?_)
      rcases hfs with ⟨_, rfl⟩ | ⟨a, ha, hfs⟩
      · intro x hx
        simp [subtrees] at hx
      · exact hF _ a fs ha hfs
    · exact forall_subtrees_singleton (hmk _ _ _ _ (by simp [bodyKinds]) (by decide)) (hN ns hns)
    · exact forall_subtrees_singleton (hmk _ _ _ _ (by simp [bodyKinds]) (by decide)) (hN ns hns)
    · intro t ht
      simp [subtrees] at ht

/-- A loop or case node, as `extractNodes` builds it, carries no `Data`. -/
theorem loop_case_data_empty (src : List Char) (n : Node) :
    (∀ out, extractChild src n = some out → ∀ t ∈ out,
        t.Type_ ∈ ["for", "while", "doWhile", "case"] → t.Data = "") ∧
      (∀ out, extractNodes n src = some out → ∀ t ∈ out,
        t.Type_ ∈ ["for", "while", "doWhile", "case"] → t.Data = "") := by
  refine extract_induct src ?_ ?_ ?_ n
  · intro t ht
    cases ht
  · intro a b ha hb t ht
    rcases List.mem_append.mp ht with h | h
    · exact ha t h
    · exact hb t h
  · intro n out h hN _
    rcases extractChild_inv src n out h with ⟨_, h1⟩ | ⟨_, d, _, rfl⟩ |
      ⟨_, i, c, s₁, s₂, b, ns, _, _, _, _, _, _, rfl⟩ |
      ⟨_, c, v, s, b, ns, _, _, _, _, _, rfl⟩ |
      ⟨_, c, s, b, ns, _, _, _, _, rfl⟩ |
      ⟨_, c, v, s, ts, fs, _, _, _, _, _, rfl⟩ |
      ⟨_, s, ns, _, _, rfl⟩ | ⟨_, c, v, s, ns, _, _, _, _, rfl⟩ | ⟨_, rfl⟩
    · exact hN out h1
    all_goals
      intro t ht hk
      first
        | exact absurd ht (List.not_mem_nil _)
        | (rw [List.mem_singleton] at ht
           subst ht
           first
             | rfl
             | (simp only [TreeNode.Type_] at hk
                exact absurd hk (by decide)))

theorem setCondition_eq_mk (v : String) (t : TreeNode) (h : t.Data = "") :
    t.setCondition v = TreeNode.mk t.Type_ "" v t.Nodes := by
  cases t with
  | mk k d c ns =>
    simp only [TreeNode.Data] at h
    subst h
    rfl

theorem extractLoop_skip (src : List Char) (c : Node) (rest : List Node)
    (h : c.IsNamed = false ∨ recognised c.Type_ = false) :
    extractLoop src (c :: rest) = extractLoop src rest := by
  rw [extractLoop_cons]
  by_cases hn : c.IsNamed = true
  · rcases h with h | h
    · rw [h] at hn
      cases hn
    · rw [if_pos hn, extractChild_unrecognised src c h]
      cases extractLoop src rest <;> rfl
  · rw [if_neg hn]

theorem extractLoop_filter_recognised (src : List Char) (cs : List Node) :
    extractLoop src (cs.filter fun c => !c.IsNamed || recognised c.Type_) =
      extractLoop src cs := by
  induction cs with
  | nil => rfl
  | cons c rest ih =>
    by_cases hk : (!c.IsNamed || recognised c.Type_) = true
    · simp only [List.filter_cons, hk, if_true]
      rw [extractLoop_cons, extractLoop_cons, ih]
    · simp only [List.filter_cons, hk]
      rw [if_neg (by simp), ih]
      have hc : c.IsNamed = false ∨ recognised c.Type_ = false := by
        right
        simp only [Bool.or_eq_true, Bool.not_eq_true', not_or, Bool.not_eq_false,
          Bool.not_eq_true] at hk
        exact hk.2
      rw [extractLoop_skip src c rest hc]

theorem forall₂_get? {α β : Type} {R : α → β → Prop} {l : List α} {m : List β}
    (h : List.Forall₂ R l m) :
    ∀ (i : Nat) (a : α) (b : β), l.get? i = some a → m.get? i = some b → R a b := by
  induction h with
  | nil =>
    intro i a b ha
    cases ha
  | cons hab _ ih =>
    intro i a b ha hb
    cases i with
    | zero =>
      simp only [List.get?_cons_zero, Option.some.injEq] at ha hb
      subst ha
      subst hb
      exact hab
    | succ j =>
      simp only [List.get?_cons_succ] at ha hb
      exact ih j a b ha hb

/-- A list of named leaf statements yields one instruction per statement. -/
theorem extractLoop_instructions (src : List Char) (cs : List Node)
    (hnamed : ∀ c ∈ cs, c.IsNamed = true)
    (hcs : ∀ c ∈ cs, isInstruction c.Type_ = true) :
    ∀ out, extractLoop src cs = some out →
      List.Forall₂ (fun c t => t.Type_ = "instruction" ∧
        sourceSlice src c.StartByte c.EndByte = some t.Data) cs out := by
  induction cs with
  | nil =>
    intro out h
    rw [extractLoop_nil] at h
    cases h
    exact List.Forall₂.nil
  | cons c rest ih =>
    intro out h
    rw [extractLoop_cons, if_pos (hnamed c (List.mem_cons_self _ _)),
      extractChild_instruction src c (hcs c (List.mem_cons_self _ _))] at h
    obtain ⟨a, ha, h⟩ := Option.bind_eq_some.mp h
    obtain ⟨d, hd, ha⟩ := Option.bind_eq_some.mp ha
    obtain ⟨b, hb, h⟩ := Option.bind_eq_some.mp h
    cases Option.some.inj ha
    cases Option.some.inj h
    exact List.Forall₂.cons ⟨rfl, hd⟩
      (ih (fun x hx => hnamed x (List.mem_cons_of_mem _ hx))
        (fun x hx => hcs x (List.mem_cons_of_mem _ hx)) b hb)

theorem sourceSlice_isSome_of_le (src : List Char) {a b c : Nat} (hab : a ≤ b) (hbc : b ≤ c)
    {s : String} (h : sourceSlice src a c = some s) : ∃ s₁, sourceSlice src a b = some s₁ := by
  unfold sourceSlice at h ⊢
  split_ifs at h with hc
  have hb : a ≤ b ∧ b ≤ src.length := ⟨hab, le_trans hbc hc.2⟩
  exact ⟨_, if_pos hb⟩

theorem extractLoop_unrecognised (src : List Char) (cs : List Node)
    (h : ∀ c ∈ cs, recognised c.Type_ = false) : extractLoop src cs = some [] := by
  induction cs with
  | nil => exact extractLoop_nil src
  | cons c rest ih =>
    rw [extractLoop_skip src c rest (Or.inr (h c (List.mem_cons_self _ _)))]
    exact ih (fun x hx => h x (List.mem_cons_of_mem _ hx))

theorem descendantsList_cons (c : Node) (rest : List Node) :
    descendantsList (c :: rest) = c.descendants ++ descendantsList rest := by
  rw [descendantsList]

theorem mem_descendants_self (n : Node) : n ∈ n.descendants := by
  cases n with
  | mk ty f nm s e cs =>
    rw [Node.descendants]
    exact List.mem_cons_self _ _

theorem mem_descendantsList {x c : Node} {cs : List Node} (hc : c ∈ cs)
    (hx : x ∈ c.descendants) : x ∈ descendantsList cs := by
  induction cs with
  | nil => cases hc
  | cons d rest ih =>
    rw [descendantsList_cons]
    rcases List.mem_cons.mp hc with rfl | h
    · exact List.mem_append_left _ hx
    · exact List.mem_append_right _ (ih h)

/-- In a tree whose anonymous nodes are tokens, the named-child traversal of
`findFunctionNodes` meets every function-typed node of the tree. -/
theorem functionNodes_eq_descendants (root : Node) (h : anonymousAreTokens root) :
    functionNodes root = root.descendants.filter (fun n => isFunctionNode n.Type_) := by
  unfold functionNodes
  induction root using Node.children_induction with
  | step ty f nm s e cs ih =>
    have hlist : ∀ (l : List Node), (∀ c ∈ l, c ∈ cs) →
        (preorderList l).filter (fun n => isFunctionNode n.Type_) =
          (descendantsList l).filter (fun n => isFunctionNode n.Type_) := by
      intro l
      induction l with
      | nil =>
        intro _
        rfl
      | cons c rest ihl =>
        intro hsub
        have hc : c ∈ cs := hsub c (List.mem_cons_self _ _)
        have hrest := ihl (fun x hx => hsub x (List.mem_cons_of_mem _ hx))
        have hsubtree : ∀ x ∈ c.descendants, x ∈ (Node.mk ty f nm s e cs).descendants := by
          intro x hx
          rw [Node.descendants]
          exact List.mem_cons_of_mem _ (mem_descendantsList hc hx)
        rw [preorderList_cons, descendantsList_cons, List.filter_append]
        by_cases hn : c.IsNamed = true
        · rw [if_pos hn, List.filter_append, hrest,
            ih c hc (fun x hx hxn => h x (hsubtree x hx) hxn)]
        · rw [if_neg hn, hrest]
          have hcn : c.IsNamed = false := by simpa using hn
          obtain ⟨hleaf, hfn⟩ := h c (hsubtree c (mem_descendants_self c)) hcn
          cases c with
          | mk ty' f' nm' s' e' cs' =>
            simp only [Node.children] at hleaf
            subst hleaf
            simp only [Node.Type_] at hfn
            simp [Node.descendants, descendantsList, List.filter_cons, Node.Type_, hfn]
    rw [Node.preorder, Node.descendants, List.filter_cons, List.filter_cons,
      hlist cs (fun c hc => hc)]

theorem sourceSlice_of_range (src : List Char) (a b : Nat) (h : a ≤ b ∧ b ≤ src.length) :
    sourceSlice src a b = some (String.mk ((src.drop a).take (b - a))) := by
  unfold sourceSlice
  exact if_pos h

/-- A named child whose row faults makes the loop fault. -/
theorem extractLoop_none_of_mem (src : List Char) (cs : List Node) (c : Node)
    (hc : c ∈ cs) (hnamed : c.IsNamed = true) (hfail : extractChild src c = none) :
    extractLoop src cs = none := by
  induction cs with
  | nil => cases hc
  | cons d rest ih =>
    rw [extractLoop_cons]
    rcases List.mem_cons.mp hc with rfl | h
    · rw [if_pos hnamed, hfail]
      rfl
    · rw [ih h]
      by_cases hd : d.IsNamed = true
      · rw [if_pos hd]
        cases extractChild src d <;> rfl
      · rw [if_neg hd]

theorem extractNodes_none_of_child (src : List Char) (n c : Node)
    (hc : c ∈ n.namedChildren) (hfail : extractChild src c = none) :
    extractNodes n src = none := by
  rw [extractNodes_eq_namedChildren]
  exact extractLoop_none_of_mem src _ c hc (List.mem_filter.mp hc).2 hfail

/-- A successful loop ran the row of each named child and kept its nodes. -/
theorem extractLoop_child_of_some (src : List Char) (cs : List Node) (c : Node)
    (hc : c ∈ cs) (hnamed : c.IsNamed = true) :
    ∀ out, extractLoop src cs = some out →
      ∃ a, extractChild src c = some a ∧ ∀ x ∈ a, x ∈ out := by
  induction cs with
  | nil => cases hc
  | cons d rest ih =>
    intro out h
    rw [extractLoop_cons] at h
    by_cases hd : d.IsNamed = true
    · rw [if_pos hd] at h
      obtain ⟨a, ha, h⟩ := Option.bind_eq_some.mp h
      obtain ⟨b, hb, h⟩ := Option.bind_eq_some.mp h
      cases Option.some.inj h
      rcases List.mem_cons.mp hc with rfl | hmem
      · exact ⟨a, ha, fun x hx => List.mem_append_left _ hx⟩
      · obtain ⟨a', ha', hsub⟩ := ih hmem b hb
        exact ⟨a', ha', fun x hx => List.mem_append_right _ (hsub x hx)⟩
    · rw [if_neg hd] at h
      rcases List.mem_cons.mp hc with rfl | hmem
      · exact absurd hnamed hd
      · exact ih hmem out h

theorem mapM_option_none {α β : Type} (f : α → Option β) (l : List α) (a : α)
    (ha : a ∈ l) (hf : f a = none) : l.mapM f = none := by
  induction l with
  | nil => cases ha
  | cons b rest ih =>
    rw [List.mapM_cons]
    rcases List.mem_cons.mp ha with rfl | h
    · rw [hf]
      rfl
    · rw [ih h]
      cases f b <;> rfl

/-- A row that calls `extractNodes` on a node faults when that call does. -/
theorem extractChild_none_of_calls (src : List Char) (c m : Node) (hcm : Calls c m)
    (hm : extractNodes m src = none) : extractChild src c = none := by
  rcases hcm with ⟨hty, rfl⟩ | ⟨hty, hb⟩ | ⟨hty, ha⟩
  · rcases hty with h | h | h | h
    · rw [extractChild_compound src m h, hm]
    · rw [extractChild_if src m h, hm]
      simp
    · rw [extractChild_case src m h, hm]
      simp
    · rw [extractChild_switch src m h, hm]
      simp
  · have hbody : ((c.ChildByFieldName "body").bind fun b => extractNodes b src) = none := by
      rw [hb]
      exact hm
    rcases hty with h | h | h
    · rw [extractChild_for src c h, hbody]
      simp
    · rw [extractChild_while src c h, hbody]
      simp
    · rw [extractChild_do src c h, hbody]
      simp
  · rw [extractChild_if src c hty, ha]
    simp [hm]

/-- A fault in the row of any node reached from `n` makes `extractNodes` on
`n` fault. -/
theorem extractNodes_none_of_reached (src : List Char) (n c : Node) (hr : Reached n c)
    (hfail : extractChild src c = none) : extractNodes n src = none := by
  induction hr with
  | child c hc => exact extractNodes_none_of_child src n c hc hfail
  | nested c m d _ hcm hd ih =>
    exact ih (extractChild_none_of_calls src c m hcm
      (extractNodes_none_of_child src m d hd hfail))

/-- The row of an `if`, `while` or `switch` whose condition has no `value`
sub-field faults. -/
theorem extractChild_none_of_no_value (src : List Char) (c : Node)
    (hty : c.Type_ = "if_statement" ∨ c.Type_ = "while_statement" ∨
      c.Type_ = "switch_statement")
    (hv : ((c.ChildByFieldName "condition").bind fun k => k.ChildByFieldName "value") = none) :
    extractChild src c = none := by
  rcases hty with h | h | h
  · rw [extractChild_if src c h, hv]
    rfl
  · rw [extractChild_while src c h, hv]
    rfl
  · rw [extractChild_switch src c h, hv]
    rfl

theorem mem_subtrees_iff {x : TreeNode} {ns : List TreeNode} :
    x ∈ subtrees ns ↔ ∃ y ∈ ns, x = y ∨ x ∈ subtrees y.Nodes := by
  induction ns with
  | nil => simp [subtrees]
  | cons t rest ih =>
    cases t with
    | mk k d c kids =>
      rw [subtrees_cons, List.mem_append, subtree_mk, List.mem_cons, ih]
      constructor
      · rintro ((h | h) | ⟨y, hy, h⟩)
        · exact ⟨_, List.mem_cons_self _ _, Or.inl h⟩
        · exact ⟨_, List.mem_cons_self _ _, Or.inr h⟩
        · exact ⟨y, List.mem_cons_of_mem _ hy, h⟩
      · rintro ⟨y, hy, h⟩
        rcases List.mem_cons.mp hy with rfl | hy
        · rcases h with h | h
          · exact Or.inl (Or.inl h)
          · exact Or.inl (Or.inr h)
        · exact Or.inr ⟨y, hy, h⟩

theorem textFromSource_mk (src : List Char) (k d c : String) (ns : List TreeNode)
    (hd : d = "" ∨ IsSlice src d)
    (hc : c = "" ∨ c = "true" ∨ c = "false" ∨ c = "default" ∨ IsSlice src c) :
    textFromSource src (TreeNode.mk k d c ns) :=
  ⟨hd, hc⟩

theorem textFromSource_setCondition (src : List Char) (v : String) (y : TreeNode)
    (hv : v = "true" ∨ v = "false") (hy : textFromSource src y) :
    textFromSource src (y.setCondition v) := by
  refine ⟨?_, ?_⟩
  · rw [setCondition_Data]
    exact hy.1
  · rw [setCondition_Condition]
    rcases hv with rfl | rfl
    · exact Or.inr (Or.inl rfl)
    · exact Or.inr (Or.inr (Or.inl rfl))

/-- Every summary node of a result of `extractNodes` takes its text from the
source. -/
theorem extract_textFromSource (src : List Char) (n : Node) :
    (∀ out, extractChild src n = some out → ∀ t ∈ subtrees out, textFromSource src t) ∧
      (∀ out, extractNodes n src = some out → ∀ t ∈ subtrees out, textFromSource src t) := by
  refine extract_induct src ?_ ?_ ?_ n
  · intro t ht
    simp [subtrees] at ht
  · intro a b ha hb
    exact forall_subtrees_append ha hb
  · intro n out h hN hF
    rcases extractChild_inv src n out h with ⟨_, h1⟩ | ⟨_, d, hd, rfl⟩ |
      ⟨_, i, c, s₁, s₂, b, ns, _, _, hs₁, hs₂, hb, hns, rfl⟩ |
      ⟨_, c, v, s, b, ns, _, _, hs, hb, hns, rfl⟩ |
      ⟨_, c, s, b, ns, _, hs, hb, hns, rfl⟩ |
      ⟨_, c, v, s, ts, fs, _, _, hs, hts, hfs, rfl⟩ |
      ⟨_, s, ns, hs, hns, rfl⟩ | ⟨_, c, v, s, ns, _, _, hs, hns, rfl⟩ | ⟨_, rfl⟩
    · exact hN out h1
    · exact forall_subtrees_singleton
        (textFromSource_mk src _ _ _ _ (Or.inr ⟨_, _, hd⟩) (Or.inl rfl))
        (by intro x hx; simp [subtrees] at hx)
    · refine forall_subtrees_singleton
        (textFromSource_mk src _ _ _ _ (Or.inl rfl) ?_) (hF _ b ns hb hns)
      rcases hs₂ with ⟨_, rfl⟩ | ⟨u, _, hu⟩
      · exact Or.inr (Or.inr (Or.inr (Or.inr ⟨_, _, hs₁⟩)))
      · exact Or.inr (Or.inr (Or.inr (Or.inr ⟨_, _, hu⟩)))
    · exact forall_subtrees_singleton
        (textFromSource_mk src _ _ _ _ (Or.inl rfl)
          (Or.inr (Or.inr (Or.inr (Or.inr ⟨_, _, hs⟩)))))
        (hF _ b ns hb hns)
    · exact forall_subtrees_singleton
        (textFromSource_mk src _ _ _ _ (Or.inl rfl)
          (Or.inr (Or.inr (Or.inr (Or.inr ⟨_, _, hs⟩)))))
        (hF _ b ns hb hns)
    · refine forall_subtrees_singleton
        (textFromSource_mk src _ _ _ _ (Or.inr ⟨_, _, hs⟩) (Or.inl rfl)) ?_
      refine forall_subtrees_append
        (forall_subtrees_map_setCondition
          (fun y hy => textFromSource_setCondition src _ y (Or.inl rfl) hy) (hN ts hts))
        (forall_subtrees_map_setCondition
          (fun y hy => textFromSource_setCondition src _ y (Or.inr rfl) hy) ?_)
      rcases hfs with ⟨_, rfl⟩ | ⟨a, ha, hfs⟩
      · intro x hx
        simp [subtrees] at hx
      · exact hF _ a fs ha hfs
    · refine forall_subtrees_singleton
        (textFromSource_mk src _ _ _ _ (Or.inl rfl) ?_) (hN ns hns)
      rcases hs with ⟨_, rfl⟩ | ⟨v, _, hv⟩
      · exact Or.inr (Or.inr (Or.inr (Or.inl rfl)))
      · exact Or.inr (Or.inr (Or.inr (Or.inr ⟨_, _, hv⟩)))
    · exact forall_subtrees_singleton
        (textFromSource_mk src _ _ _ _ (Or.inr ⟨_, _, hs⟩) (Or.inl rfl)) (hN ns hns)
    · intro t ht
      simp [subtrees] at ht

/-- A successful `case` row emits exactly one node, of `Type` "case". -/
theorem extractChild_case_single (src : List Char) (k : Node) (a : List TreeNode)
    (hty : k.Type_ = "case_statement") (h : extractChild src k = some a) :
    ∃ s ns, a = [TreeNode.mk "case" "" s ns] := by
  rw [extractChild_case src k hty] at h
  obtain ⟨s, _, h⟩ := Option.bind_eq_some.mp h
  obtain ⟨ns, _, h⟩ := Option.bind_eq_some.mp h
  exact ⟨s, ns, (Option.some.inj h).symm⟩

/-- A list of named `case_statement` nodes whose rows succeed yields one
`case` node per statement, in order. -/
theorem extractLoop_cases (src : List Char) (cs : List Node)
    (hnamed : ∀ k ∈ cs, k.IsNamed = true)
    (hty : ∀ k ∈ cs, k.Type_ = "case_statement")
    (hok : ∀ k ∈ cs, ∃ a, extractChild src k = some a) :
    ∃ kids, extractLoop src cs = some kids ∧
      List.Forall₂ (fun k t => extractChild src k = some [t] ∧ t.Type_ = "case" ∧
        t.Data = "") cs kids := by
  induction cs with
  | nil => exact ⟨[], extractLoop_nil src, List.Forall₂.nil⟩
  | cons k rest ih =>
    obtain ⟨kids, hkids, hrel⟩ := ih (fun x hx => hnamed x (List.mem_cons_of_mem _ hx))
      (fun x hx => hty x (List.mem_cons_of_mem _ hx))
      (fun x hx => hok x (List.mem_cons_of_mem _ hx))
    obtain ⟨a, ha⟩ := hok k (List.mem_cons_self _ _)
    obtain ⟨s, ns, rfl⟩ :=
      extractChild_case_single src k a (hty k (List.mem_cons_self _ _)) ha
    refine ⟨TreeNode.mk "case" "" s ns :: kids, ?_, List.Forall₂.cons ⟨ha, rfl, rfl⟩ hrel⟩
    rw [extractLoop_cons, if_pos (hnamed k (List.mem_cons_self _ _)), ha, hkids]
    rfl

theorem descendants_length (n : Node) : n.descendants.length = 1 + n.properDescendants := by
  cases n with
  | mk ty f nm s e cs =>
    rw [Node.descendants, List.length_cons, Node.properDescendants, Node.children]
    omega

theorem descendantsList_append (a b : List Node) :
    descendantsList (a ++ b) = descendantsList a ++ descendantsList b := by
  induction a with
  | nil => simp [descendantsList]
  | cons c rest ih => simp [descendantsList_cons, ih]

theorem fieldOf_split {name : String} {cs : List Node} {b : Node}
    (h : fieldOf name cs = some b) : ∃ before after, cs = before ++ b :: after := by
  induction cs with
  | nil => simp [fieldOf] at h
  | cons c rest ih =>
    rw [fieldOf] at h
    split_ifs at h with hc
    · cases h
      exact ⟨[], rest, rfl⟩
    · obtain ⟨before, after, hsplit⟩ := ih h
      exact ⟨c :: before, after, by rw [hsplit]; rfl⟩

theorem alternativesWrapped_child {n c : Node} (hc : c ∈ n.children)
    (h : alternativesWrapped n) : alternativesWrapped c := by
  intro m hm
  refine h m ?_
  cases n with
  | mk ty f nm s e cs =>
    rw [Node.descendants]
    exact List.mem_cons_of_mem _ (mem_descendantsList hc hm)

theorem summaryCount_append (a b : List TreeNode) :
    summaryCount (a ++ b) = summaryCount a + summaryCount b := by
  unfold summaryCount
  rw [subtrees_append, List.length_append]

theorem summaryCount_singleton (k d c : String) (ns : List TreeNode) :
    summaryCount [TreeNode.mk k d c ns] = 1 + summaryCount ns := by
  unfold summaryCount
  rw [subtrees_cons, subtree_mk]
  simp [subtrees]
  omega

theorem summaryCount_map_setCondition (v : String) (ns : List TreeNode) :
    summaryCount (ns.map (TreeNode.setCondition v)) = summaryCount ns := by
  induction ns with
  | nil => rfl
  | cons t rest ih =>
    cases t with
    | mk k d c kids =>
      have h1 : summaryCount (TreeNode.mk k d c kids :: rest) =
          summaryCount [TreeNode.mk k d c kids] + summaryCount rest :=
        summaryCount_append [TreeNode.mk k d c kids] rest
      have h2 : summaryCount ((TreeNode.mk k d c kids :: rest).map (TreeNode.setCondition v)) =
          summaryCount [TreeNode.mk k d v kids] +
            summaryCount (rest.map (TreeNode.setCondition v)) :=
        summaryCount_append [TreeNode.mk k d v kids] (rest.map (TreeNode.setCondition v))
      rw [h1, h2, ih, summaryCount_singleton, summaryCount_singleton]

/-- The loop emits at most as many summary nodes as there are parse nodes at
or below the children it runs over, when each row does. -/
theorem extractLoop_count (src : List Char) (cs : List Node)
    (hrow : ∀ c ∈ cs, ∀ out, extractChild src c = some out →
      summaryCount out ≤ c.descendants.length) :
    ∀ out, extractLoop src cs = some out →
      summaryCount out ≤ (descendantsList cs).length := by
  induction cs with
  | nil =>
    intro out h
    rw [extractLoop_nil] at h
    cases h
    exact Nat.zero_le _
  | cons c rest ih =>
    intro out h
    have ihr := ih (fun x hx => hrow x (List.mem_cons_of_mem _ hx))
    rw [descendantsList_cons, List.length_append]
    rw [extractLoop_cons] at h
    by_cases hn : c.IsNamed = true
    · rw [if_pos hn] at h
      obtain ⟨a, ha, h⟩ := Option.bind_eq_some.mp h
      obtain ⟨b, hb, h⟩ := Option.bind_eq_some.mp h
      cases Option.some.inj h
      rw [summaryCount_append]
      exact Nat.add_le_add (hrow c (List.mem_cons_self _ _) a ha) (ihr b hb)
    · rw [if_neg hn] at h
      exact le_trans (ihr out h) (Nat.le_add_left _ _)

theorem descendants_le_of_mem {c : Node} {cs : List Node} (hc : c ∈ cs) :
    c.descendants.length ≤ (descendantsList cs).length := by
  induction cs with
  | nil => cases hc
  | cons d rest ih =>
    rw [descendantsList_cons, List.length_append]
    rcases List.mem_cons.mp hc with rfl | h
    · exact Nat.le_add_right _ _
    · exact le_trans (ih h) (Nat.le_add_left _ _)

theorem mem_descendants_mk_self (ty : String) (f : Option String) (nm : Bool) (s e : Nat)
    (cs : List Node) : Node.mk ty f nm s e cs ∈ (Node.mk ty f nm s e cs).descendants :=
  mem_descendants_self _

/-- Count bound for the `if` row when the node labelled `alternative` is
dropped by the pass over the named children. -/
theorem if_row_count (src : List Char) (cs : List Node) (a : Node) (ts fs : List TreeNode)
    (hrow : ∀ c ∈ cs, ∀ out, extractChild src c = some out →
      summaryCount out ≤ c.descendants.length)
    (ha : fieldOf "alternative" cs = some a)
    (hskip : a.IsNamed = false ∨ recognised a.Type_ = false)
    (hts : extractLoop src cs = some ts)
    (hfs : summaryCount fs + 1 ≤ a.descendants.length) :
    summaryCount ts + summaryCount fs + 1 ≤ (descendantsList cs).length := by
  obtain ⟨before, after, rfl⟩ := fieldOf_split ha
  rw [extractLoop_append, extractLoop_skip src a after hskip] at hts
  obtain ⟨x, hx, hts⟩ := Option.bind_eq_some.mp hts
  obtain ⟨z, hz, hts⟩ := Option.bind_eq_some.mp hts
  cases Option.some.inj hts
  have hbx := extractLoop_count src before
    (fun c hc => hrow c (List.mem_append_left _ hc)) x hx
  have hbz := extractLoop_count src after
    (fun c hc => hrow c (List.mem_append_right _ (List.mem_cons_of_mem _ hc))) z hz
  rw [descendantsList_append, descendantsList_cons, List.length_append, List.length_append,
    summaryCount_append]
  omega

/-- Count bounds for a row and for `extractNodes`, by induction on the parse
tree. -/
theorem extract_count (src : List Char) (n : Node) :
    alternativesWrapped n →
      (∀ out, extractChild src n = some out → summaryCount out ≤ n.descendants.length) ∧
        (∀ out, extractNodes n src = some out → summaryCount out ≤ n.properDescendants) := by
  induction n using Node.children_induction with
  | step ty f nm s e cs ih =>
    intro hw
    have hrow : ∀ c ∈ cs, ∀ out, extractChild src c = some out →
        summaryCount out ≤ c.descendants.length :=
      fun c hc => (ih c hc (alternativesWrapped_child (n := Node.mk ty f nm s e cs) hc hw)).1
    have hnodes : ∀ c ∈ cs, ∀ out, extractNodes c src = some out →
        summaryCount out + 1 ≤ c.descendants.length := by
      intro c hc out h
      have h1 := (ih c hc (alternativesWrapped_child (n := Node.mk ty f nm s e cs) hc hw)).2 out h
      rw [descendants_length]
      omega
    have hN : ∀ out, extractNodes (Node.mk ty f nm s e cs) src = some out →
        summaryCount out ≤ (descendantsList cs).length :=
      extractLoop_count src cs hrow
    have hlen : (Node.mk ty f nm s e cs).descendants.length =
        1 + (descendantsList cs).length := descendants_length _
    refine ⟨?_, hN⟩
    intro out h
    rw [hlen]
    rcases extractChild_inv src _ out h with ⟨_, h1⟩ | ⟨_, d, _, rfl⟩ |
      ⟨_, i, c, s₁, s₂, b, ns, _, _, _, _, hb, hns, rfl⟩ |
      ⟨_, c, v, t, b, ns, _, _, _, hb, hns, rfl⟩ |
      ⟨_, c, t, b, ns, _, _, hb, hns, rfl⟩ |
      ⟨hty, c, v, t, ts, fs, _, _, _, hts, hfs, rfl⟩ |
      ⟨_, t, ns, _, hns, rfl⟩ | ⟨_, c, v, t, ns, _, _, _, hns, rfl⟩ | ⟨_, rfl⟩
    · exact le_trans (hN out h1) (Nat.le_add_left _ _)
    · rw [summaryCount_singleton]
      simp [summaryCount, subtrees]
    · rw [summaryCount_singleton]
      have hmem : b ∈ cs := fieldOf_mem hb
      have h1 := hnodes b hmem ns hns
      have h2 := descendants_le_of_mem hmem
      omega
    · rw [summaryCount_singleton]
      have hmem : b ∈ cs := fieldOf_mem hb
      have h1 := hnodes b hmem ns hns
      have h2 := descendants_le_of_mem hmem
      omega
    · rw [summaryCount_singleton]
      have hmem : b ∈ cs := fieldOf_mem hb
      have h1 := hnodes b hmem ns hns
      have h2 := descendants_le_of_mem hmem
      omega
    · rw [summaryCount_singleton, summaryCount_append, summaryCount_map_setCondition,
        summaryCount_map_setCondition]
      rcases hfs with ⟨_, rfl⟩ | ⟨a, ha, hfs⟩
      · have h1 := hN ts hts
        have h0 : summaryCount ([] : List TreeNode) = 0 := rfl
        omega
      · have hskip := hw _ (mem_descendants_mk_self ty f nm s e cs) hty a ha
        have hmem : a ∈ cs := fieldOf_mem ha
        have h1 := if_row_count src cs a ts fs hrow ha hskip hts (hnodes a hmem fs hfs)
        omega
    · rw [summaryCount_singleton]
      have h1 := hN ns hns
      omega
    · rw [summaryCount_singleton]
      have h1 := hN ns hns
      omega
    · exact Nat.zero_le _

theorem alternativesWrapped_of_check (n : Node) (h : alternativesWrappedCheck n = true) :
    alternativesWrapped n := by
  intro m hm hty a ha
  unfold alternativesWrappedCheck at h
  have hm' := List.all_eq_true.mp h m hm
  rw [hty, ha] at hm'
  simp only [bne_self_eq_false, Bool.false_or, Bool.or_eq_true, Bool.not_eq_true'] at hm'
  exact hm'

/-! ## C1: the function locator -/

/-- Claim C1. When every node typed `function_definition` or
`function_declaration` has a `declarator` whose byte range lies in the source
and a `body` on which `extractNodes` succeeds, `findFunctionNodes` returns one
summary node per such node, in pre-order of those nodes, and the summary of a
node has `Type` "function", `Data` the source slice over the declarator, empty
`Condition` and `Nodes` equal to `extractNodes` of the body. -/
theorem findFunctionNodes_one_summary_per_function (root : Node) (src : List Char)
    (hfields : ∀ n ∈ functionNodes root, ∃ d b text nodes,
      n.ChildByFieldName "declarator" = some d ∧
      sourceSlice src d.StartByte d.EndByte = some text ∧
      n.ChildByFieldName "body" = some b ∧
      extractNodes b src = some nodes) :
    ∃ out, findFunctionNodes src root = some out ∧
      List.Forall₂ (fun n t =>
        t.Type_ = "function" ∧ t.Condition = "" ∧
        (∃ d, n.ChildByFieldName "declarator" = some d ∧
          sourceSlice src d.StartByte d.EndByte = some t.Data) ∧
        (∃ b, n.ChildByFieldName "body" = some b ∧ extractNodes b src = some t.Nodes))
        (functionNodes root) out := by
  have hsum : ∀ n ∈ functionNodes root, ∃ t, functionSummary src n = some t := by
    intro n hn
    obtain ⟨d, b, text, nodes, h1, h2, h3, h4⟩ := hfields n hn
    exact ⟨TreeNode.mk "function" text "" nodes, by simp [functionSummary, h1, h2, h3, h4]⟩
  obtain ⟨out, ho, hrel⟩ := mapM_option_forall₂ (functionSummary src) (functionNodes root) hsum
  refine ⟨out, by rw [findFunctionNodes_eq, ho], ?_⟩
  refine List.Forall₂.imp ?_ hrel
  intro n t hnt
  unfold functionSummary at hnt
  cases h1 : n.ChildByFieldName "declarator" with
  | none => simp [h1] at hnt
  | some d =>
    cases h2 : sourceSlice src d.StartByte d.EndByte with
    | none => simp [h1, h2] at hnt
    | some text =>
      cases h3 : n.ChildByFieldName "body" with
      | none => simp [h1, h2, h3] at hnt
      | some b =>
        cases h4 : extractNodes b src with
        | none => simp [h1, h2, h3, h4] at hnt
        | some nodes =>
          simp [h1, h2, h3, h4] at hnt
          subst hnt
          simp [TreeNode.Type_, TreeNode.Condition, TreeNode.Data, TreeNode.Nodes, h2, h4]

/-- Witness for C1 on `nestedSrc`: the enclosing `f` comes first, the nested `g` second, as siblings. -/
theorem findFunctionNodes_one_summary_per_function_witness :
    findFunctionNodes nestedSrc nestedTree =
        some [ TreeNode.mk "function" "f()" "" [TreeNode.mk "instruction" "return 2;" "" []],
               TreeNode.mk "function" "g()" "" [TreeNode.mk "instruction" "return 1;" "" []] ] ∧
      ∃ out, findFunctionNodes nestedSrc nestedTree = some out ∧
        List.Forall₂ (fun n t =>
          t.Type_ = "function" ∧ t.Condition = "" ∧
          (∃ d, n.ChildByFieldName "declarator" = some d ∧
            sourceSlice nestedSrc d.StartByte d.EndByte = some t.Data) ∧
          (∃ b, n.ChildByFieldName "body" = some b ∧
            extractNodes b nestedSrc = some t.Nodes))
          (functionNodes nestedTree) out := by
  refine ⟨rfl, findFunctionNodes_one_summary_per_function nestedTree nestedSrc ?_⟩
  intro n hn
  have hlist : functionNodes nestedTree = [nestedOuter, nestedInner] := rfl
  rw [hlist] at hn
  rcases List.mem_cons.mp hn with rfl | hn
  · exact ⟨_, _, _, _, rfl, rfl, rfl, rfl⟩
  · rcases List.mem_cons.mp hn with rfl | hn
    · exact ⟨_, _, _, _, rfl, rfl, rfl, rfl⟩
    · cases hn

/-! ## C2: kinds of emitted nodes -/

/-- Claim C2. Every summary node at any depth of a result of `extractNodes` has
`Type` among instruction, for, while, doWhile, if, switch, case, hence never
"function" and never "try"; consequently every element of a result of
`findFunctionNodes` has `Type` "function" and no node below it has. -/
theorem extractNodes_kinds (src : List Char) :
    (∀ node ns, extractNodes node src = some ns → ∀ t ∈ subtrees ns,
        t.Type_ ∈ ["instruction", "for", "while", "doWhile", "if", "switch", "case"] ∧
        t.Type_ ≠ treenode.Function ∧ t.Type_ ≠ treenode.TRY) ∧
      (∀ root fs, findFunctionNodes src root = some fs → ∀ f ∈ fs,
        f.Type_ = "function" ∧ ∀ t ∈ subtrees f.Nodes,
          t.Type_ ∈ ["instruction", "for", "while", "doWhile", "if", "switch", "case"] ∧
          t.Type_ ≠ "function") := by
  have key : ∀ node ns, extractNodes node src = some ns → ∀ t ∈ subtrees ns,
      t.Type_ ∈ ["instruction", "for", "while", "doWhile", "if", "switch", "case"] := by
    intro node ns h
    refine (extract_forall_subtrees src (P := fun t => t.Type_ ∈ bodyKinds) ?_ ?_ ?_ node).2 ns h
    · intro k d c ns hk _
      exact hk
    · intro s ts fs
      simp [bodyKinds, TreeNode.Type_]
    · intro v y hy
      rw [setCondition_Type]
      exact hy
  have excl : ∀ s : String,
      s ∈ ["instruction", "for", "while", "doWhile", "if", "switch", "case"] →
      s ≠ "function" ∧ s ≠ "try" := by
    intro s hs
    simp only [List.mem_cons, List.mem_singleton, List.not_mem_nil, or_false] at hs
    rcases hs with rfl | rfl | rfl | rfl | rfl | rfl | rfl <;> decide
  refine ⟨fun node ns h t ht => ⟨key node ns h t ht, excl _ (key node ns h t ht)⟩, ?_⟩
  intro root fs h f hf
  rw [findFunctionNodes_eq] at h
  obtain ⟨n, _, hn⟩ := mapM_option_mem (functionSummary src) _ fs h f hf
  unfold functionSummary at hn
  obtain ⟨d, _, hn⟩ := Option.bind_eq_some.mp hn
  obtain ⟨text, _, hn⟩ := Option.bind_eq_some.mp hn
  obtain ⟨b, _, hn⟩ := Option.bind_eq_some.mp hn
  obtain ⟨nodes, hnodes, hn⟩ := Option.bind_eq_some.mp hn
  cases Option.some.inj hn
  refine ⟨rfl, fun t ht => ?_⟩
  have ht2 : t ∈ subtrees nodes := ht
  exact ⟨key b nodes hnodes t ht2, (excl _ (key b nodes hnodes t ht2)).1⟩

/-- Witness for C2 on `nestedSrc`: the function nested in the body of `f` is a
second top-level element, and the body of `f` holds an instruction only. -/
theorem extractNodes_kinds_witness :
    findFunctionNodes nestedSrc nestedTree =
        some [ TreeNode.mk "function" "f()" "" [TreeNode.mk "instruction" "return 2;" "" []],
               TreeNode.mk "function" "g()" "" [TreeNode.mk "instruction" "return 1;" "" []] ] ∧
      ∀ f ∈ [ TreeNode.mk "function" "f()" "" [TreeNode.mk "instruction" "return 2;" "" []],
              TreeNode.mk "function" "g()" "" [TreeNode.mk "instruction" "return 1;" "" []] ],
        f.Type_ = "function" ∧ ∀ t ∈ subtrees f.Nodes,
          t.Type_ ∈ ["instruction", "for", "while", "doWhile", "if", "switch", "case"] ∧
          t.Type_ ≠ "function" :=
  ⟨rfl, (extractNodes_kinds nestedSrc).2 nestedTree _ rfl⟩

/-! ## C3: the children of an `if` node -/

/-- Claim C3 as stated fails on `ifElseDirect`, an `if_statement` with a
condition holding a `value`, a consequence and an `alternative` field in which
the `alternative` label sits on the else block itself.  The consequence
produces one node and the alternative one node, yet the `if` node has three
children: the pass over the named children of the `if_statement` reaches the
else block as well and emits its statement tagged "true", before the pass over
the alternative emits it tagged "false". -/
theorem if_nodes_direct_alternative_counterexample :
    ifElseDirect.Type_ = "if_statement" ∧
      ((ifElseDirect.ChildByFieldName "condition").bind fun c => c.ChildByFieldName "value") =
        some (.mk "binary_expression" (some "value") true 4 9 []) ∧
      ifElseDirect.ChildByFieldName "consequence" = some ifElseConsequence ∧
      ifElseDirect.ChildByFieldName "alternative" = some (ifElseBlock (some "alternative")) ∧
      extractChild ifElseSrc ifElseConsequence =
        some [TreeNode.mk "instruction" "y = 1;" "" []] ∧
      extractNodes (ifElseBlock (some "alternative")) ifElseSrc =
        some [TreeNode.mk "instruction" "y = -1;" "" []] ∧
      extractChild ifElseSrc ifElseDirect =
        some [TreeNode.mk "if" "x > 0" ""
          [ TreeNode.mk "instruction" "y = 1;" "true" [],
            TreeNode.mk "instruction" "y = -1;" "true" [],
            TreeNode.mk "instruction" "y = -1;" "false" [] ]] ∧
      [ TreeNode.mk "instruction" "y = 1;" "true" [],
        TreeNode.mk "instruction" "y = -1;" "true" [],
        TreeNode.mk "instruction" "y = -1;" "false" [] ] ≠
        [TreeNode.mk "instruction" "y = 1;" "" []].map (TreeNode.setCondition "true") ++
          [TreeNode.mk "instruction" "y = -1;" "" []].map (TreeNode.setCondition "false") := by
  refine ⟨rfl, rfl, rfl, rfl, rfl, rfl, rfl, ?_⟩
  intro h
  have hlen := congrArg List.length h
  simp at hlen

/-- Claim C3, amended. For an `if_statement` child that has a condition with a
`value` sub-field and an `alternative` field, and whose named children other
than the consequence have type tags outside the classification `switch` (as
when the else branch is wrapped in an `else_clause` node carrying the
`alternative` label), the `Nodes` of the emitted `if` node are exactly the
nodes produced from the consequence, each with `Condition` "true", followed by
`extractNodes` of the alternative, each with `Condition` "false". -/
theorem if_nodes_when_alternative_wrapped (src : List Char) (child cons alt v : Node)
    (before after : List Node) (text : String) (ts fs : List TreeNode)
    (hty : child.Type_ = "if_statement")
    (hv : ((child.ChildByFieldName "condition").bind fun c => c.ChildByFieldName "value") =
      some v)
    (hs : sourceSlice src v.StartByte v.EndByte = some text)
    (_hcons : child.ChildByFieldName "consequence" = some cons)
    (hkids : child.namedChildren = before ++ cons :: after)
    (hdrop : ∀ c ∈ before ++ after, recognised c.Type_ = false)
    (halt : child.ChildByFieldName "alternative" = some alt)
    (hts : extractChild src cons = some ts)
    (hfs : extractNodes alt src = some fs) :
    extractChild src child =
      some [TreeNode.mk "if" text ""
        (ts.map (TreeNode.setCondition "true") ++ fs.map (TreeNode.setCondition "false"))] := by
  have hnamed : cons.IsNamed = true := by
    have hmem : cons ∈ child.namedChildren := by
      rw [hkids]
      exact List.mem_append_right _ (List.mem_cons_self _ _)
    exact (List.mem_filter.mp hmem).2
  have hbefore : extractLoop src before = some [] :=
    extractLoop_unrecognised src before (fun c hc => hdrop c (List.mem_append_left _ hc))
  have hafter : extractLoop src after = some [] :=
    extractLoop_unrecognised src after (fun c hc => hdrop c (List.mem_append_right _ hc))
  have hN : extractNodes child src = some ts := by
    rw [extractNodes_eq_namedChildren, hkids, extractLoop_append, hbefore, extractLoop_cons,
      if_pos hnamed, hts, hafter]
    simp
  rw [extractChild_if src child hty, hv, halt]
  simp [hs, hN, hfs]

/-- Witness for C3 on `ifElseWrapped`: an `if` node with text "x > 0" and
exactly two instruction children, tagged "true" then "false". -/
theorem if_nodes_when_alternative_wrapped_witness :
    extractChild ifElseSrc ifElseWrapped =
      some [TreeNode.mk "if" "x > 0" ""
        [ TreeNode.mk "instruction" "y = 1;" "true" [],
          TreeNode.mk "instruction" "y = -1;" "false" [] ]] := by
  refine if_nodes_when_alternative_wrapped ifElseSrc ifElseWrapped ifElseConsequence
    ifElseClause (.mk "binary_expression" (some "value") true 4 9 [])
    [ifElseCondition] [ifElseClause] "x > 0"
    [TreeNode.mk "instruction" "y = 1;" "" []] [TreeNode.mk "instruction" "y = -1;" "" []]
    rfl rfl rfl rfl rfl ?_ rfl rfl rfl
  intro c hc
  have hmem : c = ifElseCondition ∨ c = ifElseClause := by
    simpa using hc
  rcases hmem with rfl | rfl <;> rfl

/-! ## C4: branch tags of the children of an `if` node -/

/-- Claim C4. In every result of `extractNodes`, the children of a summary
node of `Type` "if", at any depth, split into a first run whose `Condition` is
"true" and a remaining run whose `Condition` is "false"; and an `if_statement`
without `alternative` field emits an `if` node all of whose children have
`Condition` "true". -/
theorem if_children_tags (src : List Char) :
    (∀ node ns, extractNodes node src = some ns → ∀ t ∈ subtrees ns, t.Type_ = "if" →
        ∃ a b, t.Nodes = a ++ b ∧ (∀ x ∈ a, x.Condition = "true") ∧
          (∀ x ∈ b, x.Condition = "false")) ∧
      (∀ child out, child.Type_ = "if_statement" →
        child.ChildByFieldName "alternative" = none →
        extractChild src child = some out →
        ∃ t, out = [t] ∧ t.Type_ = "if" ∧ ∀ x ∈ t.Nodes, x.Condition = "true") := by
  constructor
  · intro node ns h
    refine (extract_forall_subtrees src
      (P := fun t => t.Type_ = "if" → ∃ a b, t.Nodes = a ++ b ∧
        (∀ x ∈ a, x.Condition = "true") ∧ (∀ x ∈ b, x.Condition = "false"))
      ?_ ?_ ?_ node).2 ns h
    · intro k d c ns _ hk hif
      exact absurd hif hk
    · intro s ts fs _
      refine ⟨_, _, rfl, ?_, ?_⟩
      · intro x hx
        obtain ⟨y, _, rfl⟩ := List.mem_map.mp hx
        exact setCondition_Condition _ _
      · intro x hx
        obtain ⟨y, _, rfl⟩ := List.mem_map.mp hx
        exact setCondition_Condition _ _
    · intro v y hy
      rw [setCondition_Type, setCondition_Nodes]
      exact hy
  · intro child out hty halt h
    rcases extractChild_inv src child out h with ⟨h1, _⟩ | ⟨h1, _⟩ | ⟨h1, _⟩ | ⟨h1, _⟩ |
      ⟨h1, _⟩ | ⟨_, c, v, s, ts, fs, _, _, _, _, hfs, rfl⟩ | ⟨h1, _⟩ | ⟨h1, _⟩ | ⟨h1, _⟩
    any_goals (rw [hty] at h1; exact absurd h1 (by decide))
    refine ⟨_, rfl, rfl, ?_⟩
    rcases hfs with ⟨_, rfl⟩ | ⟨a, ha, _⟩
    · intro x hx
      simp only [TreeNode.Nodes, List.map_nil, List.append_nil] at hx
      obtain ⟨y, _, rfl⟩ := List.mem_map.mp hx
      exact setCondition_Condition _ _
    · rw [halt] at ha
      cases ha

/-- Witness for C4: the `if` node of `ifElseSrc` has a "true" child followed by
a "false" child, and the `if` node of `ifWhileSrc`, which has no alternative,
has "true" children only. -/
theorem if_children_tags_witness :
    (∃ a b, (TreeNode.mk "if" "x > 0" ""
        [ TreeNode.mk "instruction" "y = 1;" "true" [],
          TreeNode.mk "instruction" "y = -1;" "false" [] ]).Nodes = a ++ b ∧
        (∀ x ∈ a, x.Condition = "true") ∧ (∀ x ∈ b, x.Condition = "false")) ∧
      extractChild ifWhileSrc ifWhileTree =
        some [TreeNode.mk "if" "a" ""
          [TreeNode.mk "while" "" "true" [TreeNode.mk "instruction" "i++;" "" []]]] ∧
      ∃ t, [TreeNode.mk "if" "a" ""
          [TreeNode.mk "while" "" "true" [TreeNode.mk "instruction" "i++;" "" []]]] = [t] ∧
        t.Type_ = "if" ∧ ∀ x ∈ t.Nodes, x.Condition = "true" :=
  ⟨(if_children_tags ifElseSrc).1 ifElseBody
      [TreeNode.mk "if" "x > 0" ""
        [ TreeNode.mk "instruction" "y = 1;" "true" [],
          TreeNode.mk "instruction" "y = -1;" "false" [] ]] rfl _
      (mem_subtrees_of_mem (List.mem_singleton.mpr rfl)) rfl,
    rfl, (if_children_tags ifWhileSrc).2 ifWhileTree _ rfl rfl rfl⟩

/-! ## C5: the branch tag replaces a loop header or case label -/

/-- Claim C5. For an `if_statement`, the children of the emitted `if` node are
the nodes of `extractNodes` on the statement retagged "true", then those of
`extractNodes` on the alternative retagged "false"; a for, while, doWhile or
case node among them is emitted with fields `Type`, empty `Data`, the branch
tag as `Condition`, and its `Nodes`, so the header or label text it carried in
`Condition` is stored in none of them. -/
theorem if_branch_tag_replaces_header (src : List Char) (child : Node) (out : List TreeNode)
    (hty : child.Type_ = "if_statement") (h : extractChild src child = some out) :
    ∃ s ts fs, extractNodes child src = some ts ∧
      ((child.ChildByFieldName "alternative" = none ∧ fs = []) ∨
        ∃ a, child.ChildByFieldName "alternative" = some a ∧ extractNodes a src = some fs) ∧
      out = [TreeNode.mk "if" s ""
        (ts.map (TreeNode.setCondition "true") ++ fs.map (TreeNode.setCondition "false"))] ∧
      (∀ t ∈ ts, t.Type_ ∈ ["for", "while", "doWhile", "case"] →
        t.setCondition "true" = TreeNode.mk t.Type_ "" "true" t.Nodes) ∧
      (∀ t ∈ fs, t.Type_ ∈ ["for", "while", "doWhile", "case"] →
        t.setCondition "false" = TreeNode.mk t.Type_ "" "false" t.Nodes) := by
  rcases extractChild_inv src child out h with ⟨h1, _⟩ | ⟨h1, _⟩ | ⟨h1, _⟩ | ⟨h1, _⟩ |
    ⟨h1, _⟩ | ⟨_, c, v, s, ts, fs, _, _, _, hts, hfs, rfl⟩ | ⟨h1, _⟩ | ⟨h1, _⟩ | ⟨h1, _⟩
  any_goals (rw [hty] at h1; exact absurd h1 (by decide))
  refine ⟨s, ts, fs, hts, hfs, rfl, ?_, ?_⟩
  · intro t ht hk
    exact setCondition_eq_mk _ t ((loop_case_data_empty src child).2 ts hts t ht hk)
  · intro t ht hk
    rcases hfs with ⟨_, rfl⟩ | ⟨a, _, hfs⟩
    · cases ht
    · exact setCondition_eq_mk _ t ((loop_case_data_empty src a).2 fs hfs t ht hk)

/-- Witness for C5 on `ifWhileSrc`: outside the `if` the loop node carries its
test text "i < n" in `Condition`; as a child of the `if` node it carries
"true". -/
theorem if_branch_tag_replaces_header_witness :
    extractNodes ifWhileTree ifWhileSrc =
        some [TreeNode.mk "while" "" "i < n" [TreeNode.mk "instruction" "i++;" "" []]] ∧
      extractChild ifWhileSrc ifWhileTree =
        some [TreeNode.mk "if" "a" ""
          [TreeNode.mk "while" "" "true" [TreeNode.mk "instruction" "i++;" "" []]]] ∧
      ∃ s ts fs, extractNodes ifWhileTree ifWhileSrc = some ts ∧
        ((ifWhileTree.ChildByFieldName "alternative" = none ∧ fs = []) ∨
          ∃ a, ifWhileTree.ChildByFieldName "alternative" = some a ∧
            extractNodes a ifWhileSrc = some fs) ∧
        [TreeNode.mk "if" "a" ""
          [TreeNode.mk "while" "" "true" [TreeNode.mk "instruction" "i++;" "" []]]] =
          [TreeNode.mk "if" s ""
            (ts.map (TreeNode.setCondition "true") ++ fs.map (TreeNode.setCondition "false"))] ∧
        (∀ t ∈ ts, t.Type_ ∈ ["for", "while", "doWhile", "case"] →
          t.setCondition "true" = TreeNode.mk t.Type_ "" "true" t.Nodes) ∧
        (∀ t ∈ fs, t.Type_ ∈ ["for", "while", "doWhile", "case"] →
          t.setCondition "false" = TreeNode.mk t.Type_ "" "false" t.Nodes) :=
  ⟨rfl, rfl, if_branch_tag_replaces_header ifWhileSrc ifWhileTree _ rfl rfl⟩

/-! ## C6: flattening of nested blocks -/

/-- Claim C6. A named `compound_statement` child `b` contributes exactly
`extractNodes(b)`: a node whose only named child is `b` has the output of `b`,
and among siblings the output of `b` is spliced in place, between the output
of the children before it and the output of the children after it. -/
theorem compound_statement_flattened (src : List Char) (b : Node)
    (hb : b.Type_ = "compound_statement") (hnamed : b.IsNamed = true) :
    (∀ n, n.namedChildren = [b] → extractNodes n src = extractNodes b src) ∧
      (∀ n before after, n.children = before ++ b :: after →
        extractNodes n src =
          (extractLoop src before).bind fun x =>
            (extractNodes b src).bind fun y =>
              (extractLoop src after).bind fun z => some (x ++ y ++ z)) := by
  have hone : extractLoop src [b] = extractNodes b src := by
    rw [extractLoop_cons, extractLoop_nil, extractChild_compound src b hb]
    simp only [hnamed, if_true]
    cases extractNodes b src <;> simp
  constructor
  · intro n hn
    rw [extractNodes_eq_namedChildren, hn, hone]
  · intro n before after hn
    have hsplit : before ++ b :: after = before ++ ([b] ++ after) := by simp
    have hdef : extractNodes n src = extractLoop src n.children := rfl
    rw [hdef, hn, hsplit, extractLoop_append, extractLoop_append, hone]
    generalize extractLoop src before = A
    generalize extractNodes b src = B
    generalize extractLoop src after = C
    cases A <;> cases B <;> cases C <;> simp

/-- Witness for C6: a block holding only the block `ifElseConsequence` has the
output of that block. -/
theorem compound_statement_flattened_witness :
    extractNodes ifElseConsequence ifElseSrc =
        some [TreeNode.mk "instruction" "y = 1;" "" []] ∧
      extractNodes nestedBlock ifElseSrc = extractNodes ifElseConsequence ifElseSrc :=
  ⟨rfl, (compound_statement_flattened ifElseSrc ifElseConsequence rfl rfl).1 nestedBlock rfl⟩

/-! ## C7: unrecognised children are dropped -/

/-- Claim C7. Removing from the named children of a node every child whose
type tag has no row in the `switch` leaves `extractNodes` unchanged; such a
child contributes the empty sequence whatever lies below it, without fault,
and the children after it are processed as if it were absent. -/
theorem unrecognised_children_dropped (src : List Char) :
    (∀ n : Node,
        extractNodes
          (n.withChildren (n.children.filter fun c => !c.IsNamed || recognised c.Type_)) src =
        extractNodes n src) ∧
      (∀ c : Node, recognised c.Type_ = false → extractChild src c = some []) ∧
      (∀ (n : Node) (before after : List Node) (c : Node), recognised c.Type_ = false →
        n.children = before ++ c :: after →
        extractNodes n src = extractNodes (n.withChildren (before ++ after)) src) := by
  refine ⟨?_, fun c hc => extractChild_unrecognised src c hc, ?_⟩
  · intro n
    cases n with
    | mk ty f nm s e cs => exact extractLoop_filter_recognised src cs
  · intro n before after c hc hn
    cases n with
    | mk ty f nm s e cs =>
      simp only [Node.children] at hn
      subst hn
      show extractLoop src (before ++ c :: after) = extractLoop src (before ++ after)
      rw [extractLoop_append, extractLoop_append, extractLoop_skip src c after (Or.inr hc)]

/-- Witness for C7: the nested definition inside the body of `nestedOuter` has
an unrecognised type tag; it contributes nothing and the `return` after it is
still emitted. -/
theorem unrecognised_children_dropped_witness :
    extractChild nestedSrc nestedInner = some [] ∧
      (∃ body, nestedOuter.ChildByFieldName "body" = some body ∧
        extractNodes body nestedSrc = some [TreeNode.mk "instruction" "return 2;" "" []]) :=
  ⟨(unrecognised_children_dropped nestedSrc).2.1 nestedInner rfl, _, rfl, rfl⟩

/-! ## C8: order preservation -/

/-- Claim C8. `extractNodes` depends on a node only through its ordered named
children and distributes over their concatenation; for a body whose named
children are all return, expression or declaration statements the output has
as many nodes as there are named children and its i-th node is an instruction
carrying the text of the i-th named child. -/
theorem extractNodes_order_preserving (src : List Char) :
    (∀ n n' : Node, n.namedChildren = n'.namedChildren →
        extractNodes n src = extractNodes n' src) ∧
      (∀ (n nx ny : Node) (a b : List TreeNode),
        n.namedChildren = nx.namedChildren ++ ny.namedChildren →
        extractNodes nx src = some a → extractNodes ny src = some b →
        extractNodes n src = some (a ++ b)) ∧
      (∀ (n : Node) (out : List TreeNode),
        (∀ c ∈ n.namedChildren, isInstruction c.Type_ = true) →
        extractNodes n src = some out →
        out.length = n.NamedChildCount ∧
          ∀ (i : Nat) (c : Node) (t : TreeNode), n.NamedChild i = some c →
            out.get? i = some t →
            t.Type_ = "instruction" ∧
              sourceSlice src c.StartByte c.EndByte = some t.Data) := by
  refine ⟨?_, ?_, ?_⟩
  · intro n n' h
    rw [extractNodes_eq_namedChildren, extractNodes_eq_namedChildren, h]
  · intro n nx ny a b h ha hb
    rw [extractNodes_eq_namedChildren] at ha hb
    rw [extractNodes_eq_namedChildren, h, extractLoop_append, ha, hb]
    rfl
  · intro n out hcs h
    rw [extractNodes_eq_namedChildren] at h
    have hnamed : ∀ c ∈ n.namedChildren, c.IsNamed = true := by
      intro c hc
      exact (List.mem_filter.mp hc).2
    have hrel := extractLoop_instructions src n.namedChildren hnamed hcs out h
    exact ⟨hrel.length_eq.symm, fun i c t hc ht => forall₂_get? hrel i c t hc ht⟩

/-- Witness for C8 on `seqSrc`, a block of a declaration, an expression
statement and a return: three instructions in source order, one per named
child; the output is that of the first two statements followed by that of the
third; and it is also the output of the node holding the same three
statements without the brace tokens. -/
theorem extractNodes_order_preserving_witness :
    extractNodes seqBody seqSrc =
        some [ TreeNode.mk "instruction" "int a = 1;" "" [],
               TreeNode.mk "instruction" "a++;" "" [],
               TreeNode.mk "instruction" "return a;" "" [] ] ∧
      seqBody.NamedChildCount = 3 ∧
      extractNodes seqBody seqSrc = extractNodes seqBare seqSrc ∧
      extractNodes seqBody seqSrc =
        some ([ TreeNode.mk "instruction" "int a = 1;" "" [],
                TreeNode.mk "instruction" "a++;" "" [] ] ++
              [ TreeNode.mk "instruction" "return a;" "" [] ]) ∧
      ([ TreeNode.mk "instruction" "int a = 1;" "" [],
         TreeNode.mk "instruction" "a++;" "" [],
         TreeNode.mk "instruction" "return a;" "" [] ].length = seqBody.NamedChildCount ∧
        ∀ (i : Nat) (c : Node) (t : TreeNode), seqBody.NamedChild i = some c →
          [ TreeNode.mk "instruction" "int a = 1;" "" [],
            TreeNode.mk "instruction" "a++;" "" [],
            TreeNode.mk "instruction" "return a;" "" [] ].get? i = some t →
          t.Type_ = "instruction" ∧
            sourceSlice seqSrc c.StartByte c.EndByte = some t.Data) := by
  have hlist : seqBody.namedChildren = [seqDeclaration, seqExpression, seqReturn] := rfl
  refine ⟨rfl, rfl, (extractNodes_order_preserving seqSrc).1 seqBody seqBare rfl,
    (extractNodes_order_preserving seqSrc).2.1 seqBody seqHead seqTail _ _ rfl rfl rfl,
    (extractNodes_order_preserving seqSrc).2.2 seqBody _ ?_ rfl⟩
  intro c hc
  rw [hlist] at hc
  have hmem : c = seqDeclaration ∨ c = seqExpression ∨ c = seqReturn := by
    simpa using hc
  rcases hmem with rfl | rfl | rfl <;> rfl

/-! ## C9: the `for` row -/

/-- Claim C9. A `for_statement` child with `initializer`, `condition` and
`body` fields, on whose body `extractNodes` succeeds, emits exactly one node
of `Type` "for" with empty `Data` and the nodes of the body; its `Condition`
is the source slice from the start of the initializer to the end of the
condition when there is no `update` field, and to the end of the update when
there is one (the fields lying in source order). -/
theorem for_statement_node (src : List Char) (child i c b : Node) (ns : List TreeNode)
    (hty : child.Type_ = "for_statement")
    (hi : child.ChildByFieldName "initializer" = some i)
    (hc : child.ChildByFieldName "condition" = some c)
    (hb : child.ChildByFieldName "body" = some b)
    (hns : extractNodes b src = some ns) :
    (∀ text, child.ChildByFieldName "update" = none →
        sourceSlice src i.StartByte c.EndByte = some text →
        extractChild src child = some [TreeNode.mk "for" "" text ns]) ∧
      (∀ u text, child.ChildByFieldName "update" = some u →
        i.StartByte ≤ c.EndByte → c.EndByte ≤ u.EndByte →
        sourceSlice src i.StartByte u.EndByte = some text →
        extractChild src child = some [TreeNode.mk "for" "" text ns]) := by
  constructor
  · intro text hu hs
    rw [extractChild_for src child hty, hi, hc, hu, hb]
    simp [hs, hns]
  · intro u text hu h1 h2 hs
    obtain ⟨s₁, hs₁⟩ := sourceSlice_isSome_of_le src h1 h2 hs
    rw [extractChild_for src child hty, hi, hc, hu, hb]
    simp [hs, hs₁, hns]

/-- Witness for C9 on `forSrc`. -/
theorem for_statement_node_witness :
    extractChild forSrc forTree =
      some [TreeNode.mk "for" "" "int i = 0; i < n; i++"
        [TreeNode.mk "instruction" "sum += i;" "" []]] :=
  (for_statement_node forSrc forTree
    (.mk "declaration" (some "initializer") true 5 15 [])
    (.mk "binary_expression" (some "condition") true 16 21 [])
    forBody [TreeNode.mk "instruction" "sum += i;" "" []] rfl rfl rfl rfl rfl).2
    (.mk "update_expression" (some "update") true 23 26 []) "int i = 0; i < n; i++"
    rfl (by decide) (by decide) rfl

/-! ## C10: the `case` row -/

/-- Claim C10. A `case_statement` child on which `extractNodes` succeeds emits
exactly one node of `Type` "case" with empty `Data` and `Nodes` the output of
`extractNodes` on the case node itself; its `Condition` is the source slice
over the `value` field when that field exists, and the literal "default",
which is not the empty string, when it does not. -/
theorem case_statement_node (src : List Char) (child : Node) (ns : List TreeNode)
    (hty : child.Type_ = "case_statement")
    (hns : extractNodes child src = some ns) :
    (∀ v text, child.ChildByFieldName "value" = some v →
        sourceSlice src v.StartByte v.EndByte = some text →
        extractChild src child = some [TreeNode.mk "case" "" text ns]) ∧
      (child.ChildByFieldName "value" = none →
        extractChild src child = some [TreeNode.mk "case" "" "default" ns]) ∧
      "default" ≠ "" := by
  refine ⟨?_, ?_, by decide⟩
  · intro v text hv hs
    rw [extractChild_case src child hty, hv]
    simp [hs, hns]
  · intro hv
    rw [extractChild_case src child hty, hv]
    simp [hns]

/-- Witness for C10 on the two labels of `switchSrc`. -/
theorem case_statement_node_witness :
    extractChild switchSrc caseOne = some [TreeNode.mk "case" "" "1" []] ∧
      extractChild switchSrc caseDefault = some [TreeNode.mk "case" "" "default" []] :=
  ⟨(case_statement_node switchSrc caseOne [] rfl rfl).1
      (.mk "number_literal" (some "value") true 18 19 []) "1" rfl rfl,
    (case_statement_node switchSrc caseDefault [] rfl rfl).2.1 rfl⟩

/-! ## C11: the instruction rows -/

/-- Claim C11. A child typed `return_statement`, `expression_statement` or
`declaration` whose byte range lies within the source emits exactly one node,
of `Type` "instruction", with `Data` the source slice over the whole byte
range of the child, empty `Condition` and no children; the result does not
depend on what lies below the child. -/
theorem instruction_node (src : List Char) (child : Node)
    (hty : child.Type_ = "return_statement" ∨ child.Type_ = "expression_statement" ∨
      child.Type_ = "declaration")
    (hrange : child.StartByte ≤ child.EndByte ∧ child.EndByte ≤ src.length) :
    (∃ text, sourceSlice src child.StartByte child.EndByte = some text ∧
        extractChild src child = some [TreeNode.mk "instruction" text "" []]) ∧
      ∀ below : List Node,
        extractChild src (child.withChildren below) = extractChild src child := by
  have hins : ∀ cs, isInstruction (child.withChildren cs).Type_ = true := by
    intro cs
    cases child with
    | mk ty f nm s e kids =>
      simp only [Node.withChildren, Node.Type_] at hty ⊢
      simp only [isInstruction, Bool.or_eq_true, beq_iff_eq]
      tauto
  have hself : isInstruction child.Type_ = true := by
    simp only [isInstruction, Bool.or_eq_true, beq_iff_eq]
    tauto
  constructor
  · refine ⟨_, sourceSlice_of_range src _ _ hrange, ?_⟩
    rw [extractChild_instruction src child hself, sourceSlice_of_range src _ _ hrange]
    rfl
  · intro below
    rw [extractChild_instruction src child hself,
      extractChild_instruction src _ (hins below)]
    cases child with
    | mk ty f nm s e kids => rfl

/-- Witness for C11 on `addSrc`: the body of `add` gives the one instruction
"return a + b;", although the `return` statement has an expression below it. -/
theorem instruction_node_witness :
    extractNodes addBody addSrc = some [TreeNode.mk "instruction" "return a + b;" "" []] ∧
      ∃ text, sourceSlice addSrc 24 37 = some text ∧
        extractChild addSrc
            (.mk "return_statement" none true 24 37
              [ token "return" 24 30,
                .mk "binary_expression" none true 31 36 [],
                token ";" 36 37 ]) =
          some [TreeNode.mk "instruction" text "" []] :=
  ⟨rfl, (instruction_node addSrc
    (.mk "return_statement" none true 24 37
      [ token "return" 24 30,
        .mk "binary_expression" none true 31 36 [],
        token ";" 36 37 ])
    (Or.inl rfl) (by decide)).1⟩

/-! ## C12: the test text of `if`, `switch` and `while` -/

/-- Claim C12. For an `if_statement`, `switch_statement` or `while_statement`
child whose `condition` field has a `value` sub-field, the captured test text
is the source slice over the byte range of that `value` node; the emitted node
holds it in `Data` with empty `Condition` for "if" and "switch", and in
`Condition` with empty `Data` for "while". -/
theorem test_text_is_value_slice (src : List Char) (child c v : Node) (text : String)
    (hc : child.ChildByFieldName "condition" = some c)
    (hv : c.ChildByFieldName "value" = some v)
    (hs : sourceSlice src v.StartByte v.EndByte = some text) :
    (child.Type_ = "if_statement" → ∀ ts fs, extractNodes child src = some ts →
        ((child.ChildByFieldName "alternative" = none ∧ fs = []) ∨
          ∃ a, child.ChildByFieldName "alternative" = some a ∧
            extractNodes a src = some fs) →
        extractChild src child =
          some [TreeNode.mk "if" text ""
            (ts.map (TreeNode.setCondition "true") ++
              fs.map (TreeNode.setCondition "false"))]) ∧
      (child.Type_ = "switch_statement" → ∀ ns, extractNodes child src = some ns →
        extractChild src child = some [TreeNode.mk "switch" text "" ns]) ∧
      (child.Type_ = "while_statement" → ∀ b ns, child.ChildByFieldName "body" = some b →
        extractNodes b src = some ns →
        extractChild src child = some [TreeNode.mk "while" "" text ns]) := by
  refine ⟨?_, ?_, ?_⟩
  · intro hty ts fs hts hfs
    rw [extractChild_if src child hty, hc]
    rcases hfs with ⟨halt, rfl⟩ | ⟨a, halt, hfs⟩
    · rw [halt]
      simp only [Option.some_bind, hv, hs, hts, List.map_nil]
    · rw [halt]
      simp only [Option.some_bind, hv, hs, hts, hfs]
  · intro hty ns hns
    rw [extractChild_switch src child hty, hc]
    simp only [Option.some_bind, hv, hs, hns]
  · intro hty b ns hb hns
    rw [extractChild_while src child hty, hc, hb]
    simp only [Option.some_bind, hv, hs, hns]

/-- Witness for C12: the condition of `whileSingleSrc` spans "(i < n)", its
`value` spans "i < n", and the text kept is the latter; the same for the `if`
of `ifSingleSrc` and the `switch` of `switchSrc`. -/
theorem test_text_is_value_slice_witness :
    sourceSlice whileSingleSrc 6 13 = some "(i < n)" ∧
      extractChild whileSingleSrc whileSingleTree = some [TreeNode.mk "while" "" "i < n" []] ∧
      extractChild switchSrc switchTree =
        some [TreeNode.mk "switch" "v" ""
          [TreeNode.mk "case" "" "1" [], TreeNode.mk "case" "" "default" []]] ∧
      extractChild ifSingleSrc ifSingleTree =
        some [TreeNode.mk "if" "a" ""
          ([TreeNode.mk "instruction" "i++;" "" []].map (TreeNode.setCondition "true") ++
            [].map (TreeNode.setCondition "false"))] :=
  ⟨rfl,
    (test_text_is_value_slice whileSingleSrc whileSingleTree (conditionClause 6 13)
      (.mk "binary_expression" (some "value") true 7 12 []) "i < n" rfl rfl rfl).2.2 rfl
      _ [] rfl rfl,
    (test_text_is_value_slice switchSrc switchTree switchCondition
      (.mk "identifier" (some "value") true 8 9 []) "v" rfl rfl rfl).2.1 rfl _ rfl,
    (test_text_is_value_slice ifSingleSrc ifSingleTree (conditionClause 3 6)
      (.mk "binary_expression" (some "value") true 4 5 []) "a" rfl rfl rfl).1 rfl _ [] rfl
      (Or.inl ⟨rfl, rfl⟩)⟩

/-! ## C13: a missing field is fatal -/

/-- Claim C13. If a node typed `function_definition` or `function_declaration`
anywhere in the tree lacks a `declarator` or a `body` field, or if an `if`,
`while` or `switch` statement reached while its body is built has a condition
without `value` sub-field, then `findFunctionNodes` on the root faults as a
whole: it returns no list at all, not the list of the remaining functions. -/
theorem missing_field_is_fatal (src : List Char) (root fn : Node)
    (hfn : fn ∈ functionNodes root) :
    ((fn.ChildByFieldName "declarator" = none ∨ fn.ChildByFieldName "body" = none) →
        findFunctionNodes src root = none) ∧
      (∀ body stmt : Node, fn.ChildByFieldName "body" = some body → Reached body stmt →
        (stmt.Type_ = "if_statement" ∨ stmt.Type_ = "while_statement" ∨
          stmt.Type_ = "switch_statement") →
        ((stmt.ChildByFieldName "condition").bind fun k => k.ChildByFieldName "value") =
          none →
        findFunctionNodes src root = none) := by
  constructor
  · intro hmissing
    rw [findFunctionNodes_eq]
    refine mapM_option_none _ _ fn hfn ?_
    unfold functionSummary
    rcases hmissing with h | h
    · simp [h]
    · simp [h]
  · intro body stmt hbody hr hty hv
    have hfail : extractNodes body src = none :=
      extractNodes_none_of_reached src body stmt hr (extractChild_none_of_no_value src stmt hty hv)
    rw [findFunctionNodes_eq]
    refine mapM_option_none _ _ fn hfn ?_
    unfold functionSummary
    simp [hbody, hfail]

/-- Witness for C13: `deletedSrc` holds a function definition without body,
`plainIfSrc` a function whose `if` has a condition without `value` sub-field;
both make `findFunctionNodes` fault. -/
theorem missing_field_is_fatal_witness :
    findFunctionNodes deletedSrc deletedTree = none ∧
      findFunctionNodes plainIfSrc plainIfTree = none := by
  have h1 : deletedFunction ∈ functionNodes deletedTree := by
    have hlist : functionNodes deletedTree = [deletedFunction] := rfl
    rw [hlist]
    exact List.mem_singleton.mpr rfl
  have h2 : plainIfFunction ∈ functionNodes plainIfTree := by
    have hlist : functionNodes plainIfTree = [plainIfFunction] := rfl
    rw [hlist]
    exact List.mem_singleton.mpr rfl
  have hkid : plainIf ∈ plainIfBody.namedChildren := by
    have hlist : plainIfBody.namedChildren = [plainIf] := rfl
    rw [hlist]
    exact List.mem_singleton.mpr rfl
  exact ⟨(missing_field_is_fatal deletedSrc deletedTree deletedFunction h1).1 (Or.inr rfl),
    (missing_field_is_fatal plainIfSrc plainIfTree plainIfFunction h2).2 plainIfBody plainIf
      rfl (Reached.child plainIf hkid) (Or.inl rfl) rfl⟩

/-! ## C14: text provenance -/

/-- Claim C14. In a result of `findFunctionNodes`, every summary node at any
depth has `Data` empty or equal to a contiguous slice of the source, and
`Condition` empty, one of the literals "true", "false", "default", or a
contiguous slice of the source. -/
theorem text_provenance (src : List Char) (root : Node) (fs : List TreeNode)
    (h : findFunctionNodes src root = some fs) :
    ∀ t ∈ subtrees fs,
      (t.Data = "" ∨ ∃ a b, sourceSlice src a b = some t.Data) ∧
        (t.Condition = "" ∨ t.Condition = "true" ∨ t.Condition = "false" ∨
          t.Condition = "default" ∨ ∃ a b, sourceSlice src a b = some t.Condition) := by
  intro t ht
  show textFromSource src t
  obtain ⟨f, hf, hcase⟩ := mem_subtrees_iff.mp ht
  rw [findFunctionNodes_eq] at h
  obtain ⟨n, _, hn⟩ := mapM_option_mem (functionSummary src) _ fs h f hf
  unfold functionSummary at hn
  obtain ⟨d, _, hn⟩ := Option.bind_eq_some.mp hn
  obtain ⟨text, htext, hn⟩ := Option.bind_eq_some.mp hn
  obtain ⟨b, _, hn⟩ := Option.bind_eq_some.mp hn
  obtain ⟨nodes, hnodes, hn⟩ := Option.bind_eq_some.mp hn
  cases Option.some.inj hn
  rcases hcase with rfl | hsub
  · exact textFromSource_mk src _ _ _ _ (Or.inr ⟨_, _, htext⟩) (Or.inl rfl)
  · exact (extract_textFromSource src b).2 nodes hnodes t hsub

/-- Witness for C14 on `addSrc`. -/
theorem text_provenance_witness :
    findFunctionNodes addSrc addTree =
        some [TreeNode.mk "function" "add(int a, int b)" ""
          [TreeNode.mk "instruction" "return a + b;" "" []]] ∧
      ∀ t ∈ subtrees [TreeNode.mk "function" "add(int a, int b)" ""
          [TreeNode.mk "instruction" "return a + b;" "" []]],
        (t.Data = "" ∨ ∃ a b, sourceSlice addSrc a b = some t.Data) ∧
          (t.Condition = "" ∨ t.Condition = "true" ∨ t.Condition = "false" ∨
            t.Condition = "default" ∨ ∃ a b, sourceSlice addSrc a b = some t.Condition) :=
  ⟨rfl, text_provenance addSrc addTree _ rfl⟩

/-! ## C15: a `switch` over `case` labels -/

/-- Claim C15. For a `switch_statement` child whose condition has a `value`
sub-field, whose body block has only `case_statement` named children (each
with a row that succeeds), and whose other named children, the condition
among them, have type tags outside the classification `switch`, the row emits
one "switch" node with the test text as `Data`, whose `Nodes` are exactly one
"case" node per `case_statement` of the body block, in source order. -/
theorem switch_of_cases (src : List Char) (child body c v : Node)
    (before after : List Node) (text : String)
    (hty : child.Type_ = "switch_statement")
    (hc : child.ChildByFieldName "condition" = some c)
    (hv : c.ChildByFieldName "value" = some v)
    (hs : sourceSlice src v.StartByte v.EndByte = some text)
    (_hb : child.ChildByFieldName "body" = some body)
    (hkids : child.namedChildren = before ++ body :: after)
    (hdrop : ∀ k ∈ before ++ after, recognised k.Type_ = false)
    (hbody : body.Type_ = "compound_statement")
    (hcases : ∀ k ∈ body.namedChildren, k.Type_ = "case_statement")
    (hok : ∀ k ∈ body.namedChildren, ∃ a, extractChild src k = some a) :
    ∃ kids, extractChild src child = some [TreeNode.mk "switch" text "" kids] ∧
      List.Forall₂ (fun k t => extractChild src k = some [t] ∧ t.Type_ = "case" ∧
        t.Data = "") body.namedChildren kids := by
  obtain ⟨kids, hloop, hrel⟩ := extractLoop_cases src body.namedChildren
    (fun k hk => (List.mem_filter.mp hk).2) hcases hok
  have hnamed : body.IsNamed = true := by
    have hmem : body ∈ child.namedChildren := by
      rw [hkids]
      exact List.mem_append_right _ (List.mem_cons_self _ _)
    exact (List.mem_filter.mp hmem).2
  have hbefore : extractLoop src before = some [] :=
    extractLoop_unrecognised src before (fun k hk => hdrop k (List.mem_append_left _ hk))
  have hafter : extractLoop src after = some [] :=
    extractLoop_unrecognised src after (fun k hk => hdrop k (List.mem_append_right _ hk))
  have hB : extractChild src body = some kids := by
    rw [extractChild_compound src body hbody, extractNodes_eq_namedChildren, hloop]
  have hN : extractNodes child src = some kids := by
    rw [extractNodes_eq_namedChildren, hkids, extractLoop_append, hbefore, extractLoop_cons,
      if_pos hnamed, hB, hafter]
    simp
  refine ⟨kids, ?_, hrel⟩
  rw [extractChild_switch src child hty, hc]
  simp only [Option.some_bind, hv, hs, hN]

/-- Witness for C15 on `switchSrc`: text "v" and two case children tagged "1"
and "default", each without children, `break` having no row of its own. -/
theorem switch_of_cases_witness :
    extractChild switchSrc switchTree =
        some [TreeNode.mk "switch" "v" ""
          [TreeNode.mk "case" "" "1" [], TreeNode.mk "case" "" "default" []]] ∧
      ∃ kids, extractChild switchSrc switchTree = some [TreeNode.mk "switch" "v" "" kids] ∧
        List.Forall₂ (fun k t => extractChild switchSrc k = some [t] ∧ t.Type_ = "case" ∧
          t.Data = "") switchBody.namedChildren kids := by
  have hlist : switchBody.namedChildren = [caseOne, caseDefault] := rfl
  refine ⟨rfl, switch_of_cases switchSrc switchTree switchBody switchCondition
    (.mk "identifier" (some "value") true 8 9 []) [switchCondition] [] "v"
    rfl rfl rfl rfl rfl rfl ?_ rfl ?_ ?_⟩
  · intro k hk
    have hmem : k = switchCondition := by simpa using hk
    subst hmem
    rfl
  · intro k hk
    rw [hlist] at hk
    have hmem : k = caseOne ∨ k = caseDefault := by simpa using hk
    rcases hmem with rfl | rfl <;> rfl
  · intro k hk
    rw [hlist] at hk
    have hmem : k = caseOne ∨ k = caseDefault := by simpa using hk
    rcases hmem with rfl | rfl
    · exact ⟨_, rfl⟩
    · exact ⟨_, rfl⟩

/-! ## C16: the branch tag goes one level down -/

/-- Claim C16. For an `if_statement`, the children of the emitted `if` node
correspond one to one, in order, to the nodes `extractNodes` produces for the
same statements outside the `if` (those of the statement, then those of the
alternative); a child has the `Type`, `Data` and whole `Nodes` subtree of its
counterpart and differs from it in `Condition` only, which is the branch tag,
so a grandchild of the `if` node keeps the `Condition` it was built with. -/
theorem branch_tag_one_level (src : List Char) (child : Node) (out : List TreeNode)
    (hty : child.Type_ = "if_statement") (h : extractChild src child = some out) :
    ∃ s ts fs kids, extractNodes child src = some ts ∧
      ((child.ChildByFieldName "alternative" = none ∧ fs = []) ∨
        ∃ a, child.ChildByFieldName "alternative" = some a ∧ extractNodes a src = some fs) ∧
      out = [TreeNode.mk "if" s "" kids] ∧
      List.Forall₂ (fun plain kid =>
        kid.Type_ = plain.Type_ ∧ kid.Data = plain.Data ∧ kid.Nodes = plain.Nodes ∧
          (kid.Condition = "true" ∨ kid.Condition = "false"))
        (ts ++ fs) kids := by
  rcases extractChild_inv src child out h with ⟨h1, _⟩ | ⟨h1, _⟩ | ⟨h1, _⟩ | ⟨h1, _⟩ |
    ⟨h1, _⟩ | ⟨_, c, v, s, ts, fs, _, _, _, hts, hfs, rfl⟩ | ⟨h1, _⟩ | ⟨h1, _⟩ | ⟨h1, _⟩
  any_goals (rw [hty] at h1; exact absurd h1 (by decide))
  refine ⟨s, ts, fs, _, hts, hfs, rfl, ?_⟩
  have hmap : ∀ (tag : String) (l : List TreeNode), (tag = "true" ∨ tag = "false") →
      List.Forall₂ (fun plain kid =>
        kid.Type_ = plain.Type_ ∧ kid.Data = plain.Data ∧ kid.Nodes = plain.Nodes ∧
          (kid.Condition = "true" ∨ kid.Condition = "false"))
        l (l.map (TreeNode.setCondition tag)) := by
    intro tag l htag
    induction l with
    | nil => exact List.Forall₂.nil
    | cons t rest ih =>
      refine List.Forall₂.cons ⟨setCondition_Type _ _, setCondition_Data _ _,
        setCondition_Nodes _ _, ?_⟩ ih
      rw [setCondition_Condition]
      exact htag
  exact List.rel_append (hmap "true" ts (Or.inl rfl)) (hmap "false" fs (Or.inr rfl))

/-- Witness for C16 on `ifWhileSrc`: the loop inside the branch is tagged
"true", the instruction inside the loop keeps its empty `Condition`. -/
theorem branch_tag_one_level_witness :
    extractChild ifWhileSrc ifWhileTree =
        some [TreeNode.mk "if" "a" ""
          [TreeNode.mk "while" "" "true" [TreeNode.mk "instruction" "i++;" "" []]]] ∧
      ∃ s ts fs kids, extractNodes ifWhileTree ifWhileSrc = some ts ∧
        ((ifWhileTree.ChildByFieldName "alternative" = none ∧ fs = []) ∨
          ∃ a, ifWhileTree.ChildByFieldName "alternative" = some a ∧
            extractNodes a ifWhileSrc = some fs) ∧
        [TreeNode.mk "if" "a" ""
          [TreeNode.mk "while" "" "true" [TreeNode.mk "instruction" "i++;" "" []]]] =
          [TreeNode.mk "if" s "" kids] ∧
        List.Forall₂ (fun plain kid =>
          kid.Type_ = plain.Type_ ∧ kid.Data = plain.Data ∧ kid.Nodes = plain.Nodes ∧
            (kid.Condition = "true" ∨ kid.Condition = "false"))
          (ts ++ fs) kids :=
  ⟨rfl, branch_tag_one_level ifWhileSrc ifWhileTree _ rfl rfl⟩

/-! ## C17: the `do` row -/

/-- Claim C17. A `do_statement` child with `condition` and `body` fields, on
whose body `extractNodes` succeeds, emits exactly one node of `Type` "doWhile"
with empty `Data`, the nodes of the body, and as `Condition` the source slice
over the byte range of the `condition` node itself; the result is the same
whatever lies below the `condition` node, a `value` sub-field or none. -/
theorem do_statement_node (src : List Char) (child c b : Node) (text : String)
    (ns : List TreeNode)
    (hty : child.Type_ = "do_statement")
    (hc : child.ChildByFieldName "condition" = some c)
    (hb : child.ChildByFieldName "body" = some b)
    (hs : sourceSlice src c.StartByte c.EndByte = some text)
    (hns : extractNodes b src = some ns) :
    extractChild src child = some [TreeNode.mk "doWhile" "" text ns] := by
  rw [extractChild_do src child hty, hc, hb]
  simp only [Option.some_bind, hs, hns]

/-- Witness for C17 on `doSrc`, whose condition node has no `value` sub-field:
the text kept is that of the condition node, parentheses included. -/
theorem do_statement_node_witness :
    (Node.mk "parenthesized_expression" (some "condition") true 18 25
        [ token "(" 18 19, .mk "binary_expression" none true 19 24 [],
          token ")" 24 25 ]).ChildByFieldName "value" = none ∧
      extractChild doSrc doTree =
        some [TreeNode.mk "doWhile" "" "(i < n)" [TreeNode.mk "instruction" "i++;" "" []]] :=
  ⟨rfl, do_statement_node doSrc doTree
    (.mk "parenthesized_expression" (some "condition") true 18 25
      [ token "(" 18 19, .mk "binary_expression" none true 19 24 [], token ")" 24 25 ])
    (.mk "compound_statement" (some "body") true 3 11
      [ token "\x7b" 3 4,
        .mk "expression_statement" none true 5 9 [],
        token "\x7d" 10 11 ])
    "(i < n)" [TreeNode.mk "instruction" "i++;" "" []] rfl rfl rfl rfl rfl⟩

/-! ## C18: output size against input size -/

/-- Claim C18 as stated fails on `elseIfBody`, the parse tree of a block
holding a chain of seven `if`s in which each `if_statement` after the first is
itself the node labelled `alternative` of the one before: `extractNodes`
succeeds and returns 86 summary nodes, while the block has 71 parse nodes,
tokens included, below it. -/
theorem summary_count_exceeds_descendants :
    elseIfSrc.length = 103 ∧
      (extractNodes elseIfBody elseIfSrc).map summaryCount = some 86 ∧
      elseIfBody.properDescendants = 71 ∧
      ¬ ∀ out, extractNodes elseIfBody elseIfSrc = some out →
        summaryCount out ≤ elseIfBody.properDescendants := by
  have h1 : (extractNodes elseIfBody elseIfSrc).map summaryCount = some 86 := rfl
  have h2 : elseIfBody.properDescendants = 71 := rfl
  refine ⟨rfl, h1, h2, ?_⟩
  intro hall
  cases hout : extractNodes elseIfBody elseIfSrc with
  | none =>
    rw [hout] at h1
    cases h1
  | some out =>
    rw [hout] at h1
    have h3 : summaryCount out = 86 := Option.some.inj h1
    have h4 := hall out hout
    rw [h2, h3] at h4
    omega

/-- Claim C18, amended. For every node `n` on which `extractNodes` succeeds,
and at or below which no `if_statement` holds its `alternative` label on a named
node of recognised type, the total number of summary nodes at all depths of
the result is at most the number of parse-tree nodes strictly below `n`. -/
theorem summary_count_le_descendants (src : List Char) (n : Node) (out : List TreeNode)
    (hw : alternativesWrapped n) (h : extractNodes n src = some out) :
    summaryCount out ≤ n.properDescendants :=
  (extract_count src n hw).2 out h

/-- Witness for C18 on `wrappedBody`, whose else branch is wrapped: three
summary nodes against sixteen parse nodes below the block. -/
theorem summary_count_le_descendants_witness :
    extractNodes wrappedBody wrappedSrc =
        some [TreeNode.mk "if" "a" ""
          [ TreeNode.mk "instruction" "x;" "true" [],
            TreeNode.mk "instruction" "y;" "false" [] ]] ∧
      wrappedBody.properDescendants = 16 ∧
      summaryCount [TreeNode.mk "if" "a" ""
          [ TreeNode.mk "instruction" "x;" "true" [],
            TreeNode.mk "instruction" "y;" "false" [] ]] ≤
        wrappedBody.properDescendants :=
  ⟨rfl, rfl, summary_count_le_descendants wrappedSrc wrappedBody _
    (alternativesWrapped_of_check wrappedBody rfl) rfl⟩

/-! ## C19: a `for` without initializer or condition -/

/-- Claim C19. A `for_statement` child that lacks an `initializer` field or a
`condition` field makes its row fault, with or without an `update` field, and
with it `extractNodes` on every node holding it as a named child. -/
theorem for_statement_missing_field (src : List Char) (child : Node)
    (hty : child.Type_ = "for_statement")
    (hmissing : child.ChildByFieldName "initializer" = none ∨
      child.ChildByFieldName "condition" = none) :
    extractChild src child = none ∧
      ∀ n : Node, child ∈ n.namedChildren → extractNodes n src = none := by
  have hrow : extractChild src child = none := by
    rw [extractChild_for src child hty]
    rcases hmissing with h | h
    · rw [h]
      rfl
    · rw [h]
      cases child.ChildByFieldName "initializer" <;> rfl
  exact ⟨hrow, fun n hn => extractNodes_none_of_child src n child hn hrow⟩

/-- Witness for C19 on `forNoConditionSrc`, which has an initializer and an
update but no condition. -/
theorem for_statement_missing_field_witness :
    forNoConditionTree.ChildByFieldName "update" =
        some (.mk "update_expression" (some "update") true 18 21 []) ∧
      extractChild forNoConditionSrc forNoConditionTree = none ∧
      extractNodes forNoConditionBody forNoConditionSrc = none :=
  ⟨rfl, (for_statement_missing_field forNoConditionSrc forNoConditionTree rfl
      (Or.inr rfl)).1,
    (for_statement_missing_field forNoConditionSrc forNoConditionTree rfl
      (Or.inr rfl)).2 forNoConditionBody (by
        have hlist : forNoConditionBody.namedChildren = [forNoConditionTree] := rfl
        rw [hlist]
        exact List.mem_singleton.mpr rfl)⟩

/-! ## C20: loop bodies are built from the children of the body node -/

/-- Claim C20 as stated fails on `whileIfSrc`, a `while` whose `body` field is
a single statement and not a block, namely an `if_statement`: `extractNodes`
of that body classifies the named children of the `if_statement` and meets
its consequence `x;`, so the emitted loop node has one child, not none. -/
theorem loop_body_if_counterexample :
    whileIfTree.Type_ = "while_statement" ∧
      whileIfTree.ChildByFieldName "body" = some whileIfInner ∧
      whileIfInner.Type_ = "if_statement" ∧
      extractNodes whileIfInner whileIfSrc =
        some [TreeNode.mk "instruction" "x;" "" []] ∧
      extractChild whileIfSrc whileIfTree =
        some [TreeNode.mk "while" "" "a" [TreeNode.mk "instruction" "x;" "" []]] ∧
      (TreeNode.mk "while" "" "a" [TreeNode.mk "instruction" "x;" "" []]).Nodes ≠ [] := by
  refine ⟨rfl, rfl, rfl, rfl, rfl, ?_⟩
  intro h
  cases h

/-- Claim C20, amended. For a loop whose `body` field is a node none of whose
named children has a recognised type, such as a single unbraced expression or
return statement, `extractNodes` of the body is empty, so the for, while or
doWhile node the row emits has empty `Nodes`: the body statement itself is not
emitted.  The same statement as the `consequence` of an `if_statement` is a
named child of that statement and is emitted, tagged "true", as a child of the
`if` node. -/
theorem loop_body_statement_not_emitted (src : List Char) (child b : Node)
    (hb : child.ChildByFieldName "body" = some b)
    (hkids : ∀ k ∈ b.namedChildren, recognised k.Type_ = false) :
    extractNodes b src = some [] ∧
      ((child.Type_ = "for_statement" ∨ child.Type_ = "while_statement" ∨
          child.Type_ = "do_statement") →
        ∀ out, extractChild src child = some out →
          ∃ kind text, out = [TreeNode.mk kind "" text []] ∧
            (kind = "for" ∨ kind = "while" ∨ kind = "doWhile")) ∧
      (∀ stmt cons : Node, isInstruction cons.Type_ = true → cons.IsNamed = true →
        stmt.Type_ = "if_statement" → stmt.ChildByFieldName "consequence" = some cons →
        ∀ out, extractChild src stmt = some out →
          ∃ s kids text, out = [TreeNode.mk "if" s "" kids] ∧
            sourceSlice src cons.StartByte cons.EndByte = some text ∧
            TreeNode.mk "instruction" text "true" [] ∈ kids) := by
  have hempty : extractNodes b src = some [] := by
    rw [extractNodes_eq_namedChildren]
    exact extractLoop_unrecognised src _ hkids
  refine ⟨hempty, ?_, ?_⟩
  · intro hty out h
    rcases extractChild_inv src child out h with ⟨h1, _⟩ | ⟨h1, _⟩ |
      ⟨_, i, c, s₁, s₂, b', ns, _, _, _, _, hb', hns, rfl⟩ |
      ⟨_, c, v, s, b', ns, _, _, _, hb', hns, rfl⟩ |
      ⟨_, c, s, b', ns, _, _, hb', hns, rfl⟩ |
      ⟨h1, _⟩ | ⟨h1, _⟩ | ⟨h1, _⟩ | ⟨h1, _⟩
    · rcases hty with h2 | h2 | h2 <;> (rw [h2] at h1; exact absurd h1 (by decide))
    · rcases hty with h2 | h2 | h2 <;> (rw [h2] at h1; exact absurd h1 (by decide))
    · rw [hb] at hb'
      cases Option.some.inj hb'
      rw [hempty] at hns
      cases Option.some.inj hns
      exact ⟨_, _, rfl, Or.inl rfl⟩
    · rw [hb] at hb'
      cases Option.some.inj hb'
      rw [hempty] at hns
      cases Option.some.inj hns
      exact ⟨_, _, rfl, Or.inr (Or.inl rfl)⟩
    · rw [hb] at hb'
      cases Option.some.inj hb'
      rw [hempty] at hns
      cases Option.some.inj hns
      exact ⟨_, _, rfl, Or.inr (Or.inr rfl)⟩
    · rcases hty with h2 | h2 | h2 <;> (rw [h2] at h1; exact absurd h1 (by decide))
    · rcases hty with h2 | h2 | h2 <;> (rw [h2] at h1; exact absurd h1 (by decide))
    · rcases hty with h2 | h2 | h2 <;> (rw [h2] at h1; exact absurd h1 (by decide))
    · rcases hty with h2 | h2 | h2 <;>
        (rw [h2] at h1; exact absurd h1 (by decide))
  · intro stmt cons hins hnamed hty hcons out h
    rcases extractChild_inv src stmt out h with ⟨h1, _⟩ | ⟨h1, _⟩ | ⟨h1, _⟩ | ⟨h1, _⟩ |
      ⟨h1, _⟩ | ⟨_, c, v, s, ts, fs, _, _, _, hts, _, rfl⟩ | ⟨h1, _⟩ | ⟨h1, _⟩ | ⟨h1, _⟩
    any_goals (rw [hty] at h1; exact absurd h1 (by decide))
    have hmem : cons ∈ stmt.children := fieldOf_mem hcons
    obtain ⟨a, ha, hsub⟩ :=
      extractLoop_child_of_some src stmt.children cons hmem hnamed ts hts
    rw [extractChild_instruction src cons hins] at ha
    obtain ⟨text, htext, ha⟩ := Option.bind_eq_some.mp ha
    cases Option.some.inj ha
    refine ⟨s, _, text, rfl, htext, ?_⟩
    refine List.mem_append_left _ (List.mem_map.mpr ⟨_, hsub _ (List.mem_singleton.mpr rfl), ?_⟩)
    rfl

/-- Witness for C20: the statement `x;` as the unbraced body of the `while`
of `whileLeafSrc` is not emitted, and as the unbraced consequence of the `if`
of `ifLeafSrc` it is. -/
theorem loop_body_statement_not_emitted_witness :
    extractChild whileLeafSrc whileLeafTree = some [TreeNode.mk "while" "" "a" []] ∧
      extractChild ifLeafSrc ifLeafTree =
        some [TreeNode.mk "if" "a" "" [TreeNode.mk "instruction" "x;" "true" []]] ∧
      extractNodes (identifierStatement (some "body") 10) whileLeafSrc = some [] ∧
      (∀ out, extractChild whileLeafSrc whileLeafTree = some out →
        ∃ kind text, out = [TreeNode.mk kind "" text []] ∧
          (kind = "for" ∨ kind = "while" ∨ kind = "doWhile")) ∧
      (∀ out, extractChild ifLeafSrc ifLeafTree = some out →
        ∃ s kids text, out = [TreeNode.mk "if" s "" kids] ∧
          sourceSlice ifLeafSrc 7 9 = some text ∧
          TreeNode.mk "instruction" text "true" [] ∈ kids) := by
  have hkids : ∀ k ∈ (identifierStatement (some "body") 10).namedChildren,
      recognised k.Type_ = false := by
    intro k hk
    have hlist : (identifierStatement (some "body") 10).namedChildren =
        [.mk "identifier" none true 10 11 []] := rfl
    rw [hlist, List.mem_singleton] at hk
    subst hk
    rfl
  exact ⟨rfl, rfl,
    (loop_body_statement_not_emitted whileLeafSrc whileLeafTree _ rfl hkids).1,
    (loop_body_statement_not_emitted whileLeafSrc whileLeafTree _ rfl hkids).2.1
      (Or.inr (Or.inl rfl)),
    (loop_body_statement_not_emitted ifLeafSrc whileLeafTree _ rfl hkids).2.2
      ifLeafTree (identifierStatement (some "consequence") 7) rfl rfl rfl rfl⟩

end CodeParser
